import Mathlib

/-!
# Verification of the `translate_srt.py` translation pipeline

A shallow embedding of the core of `translate_srt.py` (SRT subtitle
translator driven by an Ollama backend).  Python strings are modelled as
`List Char` (ASCII fragment of Python's Unicode semantics: `str.strip`,
`\s`, `\w` and `str.isdigit` are modelled over their ASCII meaning).
The HTTP layer is modelled by an oracle `Nat → Option Resp`: the value at
`t` is the outcome of the `t`-th HTTP POST attempt made by the process
(`none` = a transport-level `requests.RequestException`, `some r` = a
response object).  Mutable state (the translation cache, the attempt
clock, the uuid supply counter) is threaded explicitly.
-/

namespace Srt

/-- Python strings, modelled as lists of characters. -/
abbrev Str := List Char

/-- The characters removed by Python's default `str.strip()` (ASCII part):
space, tab, newline, carriage return, vertical tab, form feed. -/
def pySpace (c : Char) : Bool :=
  c = ' ' || c = '\t' || c = '\n' || c = '\r' || c = '\x0b' || c = '\x0c'

/-- Python `s.strip()`: drop leading and trailing whitespace. -/
def pyStrip (s : Str) : Str :=
  ((s.dropWhile pySpace).reverse.dropWhile pySpace).reverse

/-- Python regex `\w` (ASCII part): letters, digits, underscore. -/
def wordChar (c : Char) : Bool :=
  c.isAlphanum || c = '_'

/-- `validate_translation(original, translated)` from `translate_srt.py`:
basic quality checks on a produced translation. -/
def validate_translation (original translated : Str) : Bool :=
  -- `if not translated or not translated.strip(): return False`
  if translated.isEmpty || (pyStrip translated).isEmpty then false
  -- `if translated.strip() == original.strip(): return False`
  else if pyStrip translated = pyStrip original then false
  -- `if len(translated) > len(original) * 5 and len(original) > 10: return False`
  else if translated.length > original.length * 5 && original.length > 10 then false
  -- `stripped = re.sub(r'[\s\W]+', '', translated); if not stripped: return False`
  else if (translated.filter (fun c => !(pySpace c || !wordChar c))).isEmpty then false
  else true

theorem wordChar_not_pySpace (c : Char) (h : wordChar c = true) : pySpace c = false := by
  by_contra hs
  have hs' : pySpace c = true := by
    cases hp : pySpace c
    · exact absurd hp hs
    · rfl
  unfold pySpace at hs'
  unfold wordChar at h
  rcases Bool.or_eq_true_iff.mp h with hA | hU
  · simp only [Bool.or_eq_true, decide_eq_true_eq] at hs'
    rcases hs' with ((((h1 | h2) | h3) | h4) | h5) | h6 <;>
      (subst_vars; simp [Char.isAlphanum, Char.isAlpha, Char.isUpper, Char.isLower,
        Char.isDigit] at hA)
  · simp only [decide_eq_true_eq] at hU
    subst hU
    simp only [Bool.or_eq_true, decide_eq_true_eq] at hs'
    rcases hs' with ((((h1 | h2) | h3) | h4) | h5) | h6 <;> simp_all

theorem filter_word_eq (t : Str) :
    t.filter (fun c => !(pySpace c || !wordChar c)) = t.filter (fun c => wordChar c) := by
  apply List.filter_congr
  intro c _
  cases hw : wordChar c
  · simp [hw]
  · simp [hw, wordChar_not_pySpace c hw]

theorem pyStrip_nil : pyStrip [] = [] := rfl

theorem isEmpty_or_iff (t : Str) :
    (t.isEmpty || (pyStrip t).isEmpty) = true ↔ pyStrip t = [] := by
  constructor
  · intro h
    rcases Bool.or_eq_true_iff.mp h with h1 | h2
    · rw [List.isEmpty_iff.mp h1]; rfl
    · exact List.isEmpty_iff.mp h2
  · intro h
    rw [h]
    simp

/-- C5: `validate_translation(original, translated)` returns `False` exactly
when the translated text strips to nothing, or its strip equals the
original's strip, or it is more than 5× longer than an original that is
itself longer than 10 characters, or it contains no word character at all;
in particular `validate_translation s s = False` for every non-empty `s`. -/
theorem validate_translation_false_iff :
    (∀ o t : Str, validate_translation o t = false ↔
      (pyStrip t = [] ∨ pyStrip t = pyStrip o ∨
        (t.length > 5 * o.length ∧ o.length > 10) ∨
        t.filter (fun c => wordChar c) = [])) ∧
    (∀ s : Str, s ≠ [] → validate_translation s s = false) := by
  constructor
  · intro o t
    unfold validate_translation
    split_ifs with h1 h2 h3 h4
    · simp only [true_iff]
      exact Or.inl ((isEmpty_or_iff t).mp h1)
    · simp only [true_iff]
      exact Or.inr (Or.inl h2)
    · simp only [Bool.and_eq_true, decide_eq_true_eq] at h3
      simp only [true_iff]
      exact Or.inr (Or.inr (Or.inl ⟨by omega, h3.2⟩))
    · rw [filter_word_eq] at h4
      simp only [true_iff]
      exact Or.inr (Or.inr (Or.inr (List.isEmpty_iff.mp h4)))
    · rw [filter_word_eq] at h4
      simp only [Bool.and_eq_true, decide_eq_true_eq, not_and] at h3
      constructor
      · intro hfalse
        exact absurd hfalse (by simp)
      · intro habs
        exfalso
        rcases habs with hA | hB | hC | hD
        · exact h1 ((isEmpty_or_iff t).mpr hA)
        · exact h2 hB
        · rcases hC with ⟨hlen, horig⟩
          exact absurd horig (by intro hg; omega)
        · exact h4 (List.isEmpty_iff.mpr hD)
  · intro s hs
    unfold validate_translation
    split_ifs with h1 h2 h3 h4 <;> first | rfl | exact absurd rfl h2

/-- Witness for C5's theorem: a concrete non-empty string `s` with
`validate_translation s s = false`. -/
theorem validate_translation_false_iff_witness :
    validate_translation ("abc".data) ("abc".data) = false :=
  validate_translation_false_iff.2 ("abc".data) (by decide)

/-- C9 counterexample: the code returns `True` on
`validate_translation("Hello", "H"*100)` — the length-ratio guard only
fires when the original is longer than 10 characters, and `"Hello"` has
length 5, so the claimed `False` is wrong. -/
theorem validate_hello_counterexample :
    validate_translation ("Hello".data) (List.replicate 100 'H') = true := by
  decide

/-- C9 amended: `validate_translation("Hello", "H"*100)` returns `True`
because the length-ratio guard requires the original to be longer than 10
characters and `"Hello"` has length 5; for an original longer than 10
characters, e.g. `"Hello World!"`, the guard does fire and
`validate_translation("Hello World!", "H"*100)` returns `False`. -/
theorem validate_hello_amended :
    validate_translation ("Hello".data) (List.replicate 100 'H') = true ∧
    validate_translation ("Hello World!".data) (List.replicate 100 'H') = false := by
  decide

/-! ## The batch chunker (`make_chunks`, nested in `translate_batch`) -/

/-- The loop of `make_chunks`, with the loop state made explicit:
`cur` is the chunk being accumulated, `curStart` the index of its first
element, `curLen` the running character total, `i` the enumeration index. -/
def mkChunksAux (maxc : Nat) : List Str → Nat → List Str → Nat → Nat → List (Nat × List Str)
  | [], _, cur, curStart, _ =>
      -- `if cur: chunks.append((cur_start, cur))`
      if cur = [] then [] else [(curStart, cur)]
  | t :: rest, i, cur, curStart, curLen =>
      -- `if cur and cur_len + len(t) > max_chars_local: flush`
      if cur ≠ [] ∧ curLen + t.length > maxc then
        (curStart, cur) :: mkChunksAux maxc rest (i + 1) [t] i t.length
      else
        mkChunksAux maxc rest (i + 1) (cur ++ [t]) curStart (curLen + t.length)

/-- `make_chunks(texts_list, max_chars_local)` from `translate_batch`. -/
def make_chunks (texts : List Str) (maxc : Nat) : List (Nat × List Str) :=
  mkChunksAux maxc texts 0 [] 0 0

theorem headD_of_singleton_prefix {t : Str} {l : List Str}
    (h : [t] <+: l) : l.headD [] = t := by
  rcases h with ⟨r, hr⟩
  subst hr
  rfl

/-- Loop invariant for `mkChunksAux`. -/
theorem mkChunksAux_invariant (maxc : Nat) :
    ∀ (ts : List Str) (i : Nat) (cur : List Str) (curStart curLen : Nat),
    curLen = (cur.map List.length).sum →
    curStart + cur.length = i →
    (2 ≤ cur.length → curLen ≤ maxc) →
    (((mkChunksAux maxc ts i cur curStart curLen).map Prod.snd).flatten = cur ++ ts) ∧
    (∀ p ∈ mkChunksAux maxc ts i cur curStart curLen, p.2 ≠ []) ∧
    (∀ p ∈ mkChunksAux maxc ts i cur curStart curLen,
      2 ≤ p.2.length → (p.2.map List.length).sum ≤ maxc) ∧
    (∀ k, k < (mkChunksAux maxc ts i cur curStart curLen).length →
      ((mkChunksAux maxc ts i cur curStart curLen).getD k default).1 =
        curStart +
          (((mkChunksAux maxc ts i cur curStart curLen).take k).map
            (fun p => p.2.length)).sum) ∧
    (∀ k, k + 1 < (mkChunksAux maxc ts i cur curStart curLen).length →
      ((((mkChunksAux maxc ts i cur curStart curLen).getD k default).2.map
          List.length).sum +
        (((mkChunksAux maxc ts i cur curStart curLen).getD (k + 1)
            default).2.headD []).length > maxc)) ∧
    (cur ≠ [] →
      mkChunksAux maxc ts i cur curStart curLen ≠ [] ∧
      ((mkChunksAux maxc ts i cur curStart curLen).headD default).1 = curStart ∧
      cur <+: ((mkChunksAux maxc ts i cur curStart curLen).headD default).2) := by
  intro ts
  induction ts with
  | nil =>
    intro i cur curStart curLen hlen hstart hbound
    by_cases hcur : cur = []
    · subst hcur
      simp [mkChunksAux]
    · rw [mkChunksAux, if_neg hcur]
      refine ⟨by simp, ?_, ?_, ?_, ?_, ?_⟩
      · intro p hp
        rw [List.mem_singleton] at hp
        subst hp
        exact hcur
      · intro p hp h2
        rw [List.mem_singleton] at hp
        subst hp
        exact hlen ▸ hbound h2
      · intro k hk
        have hk0 : k = 0 := by
          simp only [List.length_singleton, Nat.lt_one_iff] at hk
          exact hk
        subst hk0
        simp
      · intro k hk
        simp at hk
      · intro _
        exact ⟨by simp, rfl, List.prefix_rfl⟩
  | cons t rest ih =>
    intro i cur curStart curLen hlen hstart hbound
    by_cases hguard : cur ≠ [] ∧ curLen + t.length > maxc
    · -- flush the current chunk, start a new one at index i
      rw [mkChunksAux, if_pos hguard]
      have ih' := ih (i + 1) [t] i t.length (by simp) (by simp)
        (by intro h2; simp at h2)
      obtain ⟨iha, ihb, ihc, ihd, ihe, ihf⟩ := ih'
      have hne : ([t] : List Str) ≠ [] := by simp
      obtain ⟨hout_ne, hout_start, hout_pre⟩ := ihf hne
      refine ⟨?_, ?_, ?_, ?_, ?_, ?_⟩
      · simp only [List.map_cons, List.flatten_cons]
        rw [iha]
        simp
      · intro p hp
        rcases List.mem_cons.mp hp with hp | hp
        · subst hp; exact hguard.1
        · exact ihb p hp
      · intro p hp h2
        rcases List.mem_cons.mp hp with hp | hp
        · subst hp
          exact hlen ▸ hbound h2
        · exact ihc p hp h2
      · intro k hk
        match k with
        | 0 => simp
        | k + 1 =>
          simp only [List.length_cons, Nat.add_lt_add_iff_right] at hk
          have := ihd k hk
          simp only [List.getD_cons_succ, List.take_succ_cons, List.map_cons,
            List.sum_cons]
          rw [this]
          omega
      · intro k hk
        match k with
        | 0 =>
          simp only [List.length_cons] at hk
          simp only [List.getD_cons_zero, List.getD_cons_succ]
          have hhead : ((mkChunksAux maxc rest (i + 1) [t] i t.length).getD 0
              default).2.headD [] = t := by
            cases hout : mkChunksAux maxc rest (i + 1) [t] i t.length with
            | nil => exact absurd hout hout_ne
            | cons q qs =>
              rw [hout] at hout_pre
              simpa using headD_of_singleton_prefix hout_pre
          rw [hhead, ← hlen]
          exact hguard.2
        | k + 1 =>
          simp only [List.length_cons, Nat.add_lt_add_iff_right] at hk
          simpa using ihe k hk
      · intro _
        refine ⟨by simp, rfl, List.prefix_rfl⟩
    · -- append t to the current chunk
      rw [mkChunksAux, if_neg hguard]
      have hbound' : 2 ≤ (cur ++ [t]).length → curLen + t.length ≤ maxc := by
        intro h2
        by_cases hcur : cur = []
        · subst hcur; simp at h2
        · have : ¬(curLen + t.length > maxc) := fun hx => hguard ⟨hcur, hx⟩
          omega
      have ih' := ih (i + 1) (cur ++ [t]) curStart (curLen + t.length)
        (by simp [hlen]) (by simp; omega) hbound'
      obtain ⟨iha, ihb, ihc, ihd, ihe, ihf⟩ := ih'
      refine ⟨?_, ihb, ihc, ihd, ihe, ?_⟩
      · rw [iha]
        simp
      · intro hcur
        have hne : cur ++ [t] ≠ [] := by simp
        obtain ⟨h1, h2, h3⟩ := ihf hne
        exact ⟨h1, h2, ((List.prefix_append cur [t]).trans h3)⟩

theorem mem_of_length_le_one {t : Str} {l : List Str}
    (hmem : t ∈ l) (hlen : l.length ≤ 1) : l = [t] := by
  match l with
  | [] => simp at hmem
  | [x] => rw [List.mem_singleton] at hmem; subst hmem; rfl
  | x :: y :: r => simp at hlen

/-- C3: `make_chunks` produces a greedy ordered partition: concatenating
the chunks reproduces the input; every chunk is non-empty; a chunk with at
least two texts has total length at most `max_chars`; each chunk's
`start_index` is the position of its first text in the full sequence;
consecutive chunks witness greediness (the finished chunk plus the next
chunk's first text would overflow); and a text longer than `max_chars`
sits in a chunk by itself. -/
theorem make_chunks_partition (texts : List Str) (maxc : Nat) :
    (((make_chunks texts maxc).map Prod.snd).flatten = texts) ∧
    (∀ p ∈ make_chunks texts maxc, p.2 ≠ []) ∧
    (∀ p ∈ make_chunks texts maxc,
      2 ≤ p.2.length → (p.2.map List.length).sum ≤ maxc) ∧
    (∀ k, k < (make_chunks texts maxc).length →
      ((make_chunks texts maxc).getD k default).1 =
        (((make_chunks texts maxc).take k).map (fun p => p.2.length)).sum) ∧
    (∀ k, k + 1 < (make_chunks texts maxc).length →
      ((((make_chunks texts maxc).getD k default).2.map List.length).sum +
        (((make_chunks texts maxc).getD (k + 1) default).2.headD []).length
          > maxc)) ∧
    (∀ p ∈ make_chunks texts maxc, ∀ t ∈ p.2, maxc < t.length → p.2 = [t]) := by
  have h := mkChunksAux_invariant maxc texts 0 [] 0 0 (by simp) (by simp)
    (by intro h2; simp at h2)
  obtain ⟨ha, hb, hc, hd, he, _⟩ := h
  refine ⟨by simpa using ha, hb, hc, ?_, he, ?_⟩
  · intro k hk
    simpa using hd k hk
  · intro p hp t ht hlong
    have hone : p.2.length ≤ 1 := by
      by_contra hgt
      have h2 : 2 ≤ p.2.length := by omega
      have hsum := hc p hp h2
      have : t.length ≤ (p.2.map List.length).sum :=
        List.single_le_sum (by intro x _; exact Nat.zero_le x) _
          (List.mem_map_of_mem List.length ht)
      omega
    exact mem_of_length_le_one ht hone

/-- Witness for C3's theorem: on `["ab", "cd", "e"]` with `max_chars = 4`
the second chunk starts at index 2, and the chunks rebuild the input. -/
theorem make_chunks_partition_witness :
    (((make_chunks [['a','b'], ['c','d'], ['e']] 4).map Prod.snd).flatten =
      [['a','b'], ['c','d'], ['e']]) ∧
    ((make_chunks [['a','b'], ['c','d'], ['e']] 4).getD 1 default).1 =
      (((make_chunks [['a','b'], ['c','d'], ['e']] 4).take 1).map
        (fun p => p.2.length)).sum :=
  ⟨(make_chunks_partition [['a','b'], ['c','d'], ['e']] 4).1,
   (make_chunks_partition [['a','b'], ['c','d'], ['e']] 4).2.2.2.1 1 (by decide)⟩

/-! ## The translation backend client (`post_with_retry`) -/

/-- An HTTP response object (`requests.Response`), as far as the pipeline
inspects it: the status code, the `response` field of the parsed JSON
body when `resp.json()` succeeds (`data.get("response", "")`, so an
absent field is the empty string), and the raw body text. -/
structure Resp where
  status : Nat
  responseField : Option Str
  body : Str
  deriving DecidableEq

/-- The network environment: the outcome of the `t`-th HTTP POST attempt
made by the process (`none` = transport-level exception). -/
def Net := Nat → Option Resp

/-- The observable outcome of one `post_with_retry` call: the returned
value, the attempt clock afterwards, and the sleeps performed (in
seconds, `backoff * 2^(attempt-1)` after the failed attempt numbered
`attempt`). -/
structure PostOutcome where
  out : Option Resp
  t1 : Nat
  sleeps : List ℚ
  deriving DecidableEq

/-- The `for attempt in range(1, attempts + 1)` loop of `post_with_retry`:
`a` is the 1-based attempt number, `k` the number of attempts left, `clk`
the attempt clock. A successful POST returns the response immediately; a
transport failure sleeps `backoff * 2^(a-1)` and retries. -/
def postLoop (net : Net) (backoff : ℚ) : Nat → Nat → Nat → PostOutcome
  | _, 0, clk => ⟨none, clk, []⟩
  | a, k + 1, clk =>
    match net clk with
    | some r => ⟨some r, clk + 1, []⟩
    | none =>
      let rest := postLoop net backoff (a + 1) k (clk + 1)
      ⟨rest.out, rest.t1, backoff * 2 ^ (a - 1) :: rest.sleeps⟩

/-- `post_with_retry(url, json, timeout, attempts, backoff)` from
`translate_srt.py`, abstracted over the network oracle and the clock. -/
def post_with_retry (net : Net) (backoff : ℚ) (attempts : Nat) (clk : Nat) :
    PostOutcome :=
  postLoop net backoff 1 attempts clk

theorem pow_exp_congr (backoff : ℚ) {x y : Nat} (h : x = y) :
    backoff * 2 ^ x = backoff * 2 ^ y := by rw [h]

theorem postLoop_all_fail (net : Net) (backoff : ℚ) :
    ∀ (k a clk : Nat), 1 ≤ a → (∀ j, j < k → net (clk + j) = none) →
    postLoop net backoff a k clk =
      ⟨none, clk + k, (List.range k).map (fun b => backoff * 2 ^ (a - 1 + b))⟩ := by
  intro k
  induction k with
  | zero => intro a clk _ _; simp [postLoop]
  | succ k ih =>
    intro a clk ha hfail
    have h0 : net clk = none := by simpa using hfail 0 (Nat.succ_pos k)
    have hrest := ih (a + 1) (clk + 1) (by omega)
      (by intro j hj; have h1 := hfail (j + 1) (by omega); rw [← h1]; congr 1; omega)
    simp only [postLoop, h0, hrest]
    rw [PostOutcome.mk.injEq]
    refine ⟨rfl, by omega, ?_⟩
    rw [List.range_succ_eq_map]
    simp only [List.map_cons, List.map_map]
    refine congrArg₂ List.cons ?_ ?_
    · exact pow_exp_congr backoff (by omega)
    · apply List.map_congr_left
      intro b _
      simp only [Function.comp_apply]
      exact pow_exp_congr backoff (by omega)

theorem postLoop_first_success (net : Net) (backoff : ℚ) (r : Resp) :
    ∀ (j a clk k : Nat), j < k → 1 ≤ a →
    net (clk + j) = some r → (∀ b, b < j → net (clk + b) = none) →
    postLoop net backoff a k clk =
      ⟨some r, clk + j + 1, (List.range j).map (fun b => backoff * 2 ^ (a - 1 + b))⟩ := by
  intro j
  induction j with
  | zero =>
    intro a clk k hjk _ hsucc _
    cases k with
    | zero => omega
    | succ k =>
      simp only [Nat.add_zero] at hsucc
      simp only [postLoop, hsucc]
      simp
  | succ j ih =>
    intro a clk k hjk ha hsucc hfail
    cases k with
    | zero => omega
    | succ k =>
      have h0 : net clk = none := by simpa using hfail 0 (Nat.succ_pos j)
      have hrest := ih (a + 1) (clk + 1) k (by omega) (by omega)
        (by rw [← hsucc]; congr 1; omega)
        (by intro b hb; have h1 := hfail (b + 1) (by omega); rw [← h1]; congr 1; omega)
      simp only [postLoop, h0, hrest]
      rw [PostOutcome.mk.injEq]
      refine ⟨rfl, by omega, ?_⟩
      rw [List.range_succ_eq_map]
      simp only [List.map_cons, List.map_map]
      refine congrArg₂ List.cons ?_ ?_
      · exact pow_exp_congr backoff (by omega)
      · apply List.map_congr_left
        intro b _
        simp only [Function.comp_apply]
        exact pow_exp_congr backoff (by omega)

/-- C4: `post_with_retry` returns the response of the first attempt that
completes without a transport exception, whatever its status (no retry on
error statuses); it returns the failure signal `none` exactly when all
`attempts` consecutive attempts raise transport failures; and it sleeps
`backoff * 2^(attempt-1)` after each failed attempt. -/
theorem post_with_retry_spec (net : Net) (backoff : ℚ) (attempts clk : Nat) :
    (∀ j r, j < attempts → net (clk + j) = some r →
      (∀ b, b < j → net (clk + b) = none) →
      post_with_retry net backoff attempts clk =
        ⟨some r, clk + j + 1, (List.range j).map (fun b => backoff * 2 ^ b)⟩) ∧
    ((∀ j, j < attempts → net (clk + j) = none) →
      post_with_retry net backoff attempts clk =
        ⟨none, clk + attempts,
          (List.range attempts).map (fun b => backoff * 2 ^ b)⟩) ∧
    ((post_with_retry net backoff attempts clk).out = none ↔
      ∀ j, j < attempts → net (clk + j) = none) := by
  refine ⟨?_, ?_, ?_⟩
  · intro j r hj hsucc hfail
    have h := postLoop_first_success net backoff r j 1 clk attempts hj (le_refl 1)
      hsucc hfail
    simpa using h
  · intro hfail
    have h := postLoop_all_fail net backoff attempts 1 clk (le_refl 1) hfail
    simpa using h
  · constructor
    · intro hnone
      by_contra hex
      push_neg at hex
      obtain ⟨j0, hj0, hne⟩ := hex
      classical
      have hP : ∃ j, j < attempts ∧ net (clk + j) ≠ none := ⟨j0, hj0, hne⟩
      obtain ⟨hjm_lt, hjm_ne⟩ := Nat.find_spec hP
      obtain ⟨r, hr⟩ := Option.ne_none_iff_exists.mp hjm_ne
      have hfail : ∀ b, b < Nat.find hP → net (clk + b) = none := by
        intro b hb
        by_contra hbne
        exact Nat.find_min hP hb ⟨lt_trans hb hjm_lt, hbne⟩
      have h := postLoop_first_success net backoff r (Nat.find hP) 1 clk attempts
        hjm_lt (le_refl 1) hr.symm hfail
      rw [post_with_retry, h] at hnone
      simp at hnone
    · intro hfail
      have h := postLoop_all_fail net backoff attempts 1 clk (le_refl 1) hfail
      simp [post_with_retry, h]

/-- A concrete network for the C4 witness: the first two attempts raise
transport failures, the third returns a 500 response. -/
def exampleNet : Net := fun t =>
  if t = 2 then some ⟨500, none, ('e' :: 'r' :: 'r' :: [])⟩ else none

/-- Witness for C4's theorem: with two transport failures then a 500
response, `post_with_retry` returns the 500 response as-is after two
backoff sleeps of 1 and 2 seconds. -/
theorem post_with_retry_spec_witness :
    post_with_retry exampleNet 1 3 0 =
      ⟨some ⟨500, none, ('e' :: 'r' :: 'r' :: [])⟩, 3,
        (List.range 2).map (fun b => (1 : ℚ) * 2 ^ b)⟩ := by
  have h := (post_with_retry_spec exampleNet 1 3 0).1 2
    ⟨500, none, ('e' :: 'r' :: 'r' :: [])⟩ (by decide)
    (by simp [exampleNet]) (by intro b hb; interval_cases b <;> simp [exampleNet])
  simpa using h

/-! ## The subtitle document model (`parse_srt`, `write_srt`) -/

/-- `str(d)` for one decimal digit. -/
def digitCh (d : Nat) : Char := Char.ofNat (48 + d)

/-- The numeric value of a decimal digit character. -/
def charVal (c : Char) : Nat := c.toNat - 48

/-- Python `str(n)` for a non-negative integer. -/
def natToStr (n : Nat) : Str :=
  if n = 0 then ['0'] else ((Nat.digits 10 n).map digitCh).reverse

/-- Python `int(s)` on a digit string. -/
def strToNat (s : Str) : Nat := s.foldl (fun a c => 10 * a + charVal c) 0

/-- Python `s.isdigit()` (ASCII digits). -/
def isDigitStr (s : Str) : Bool := !s.isEmpty && s.all (fun c => c.isDigit)

/-- Consume `\d{2}:\d{2}:\d{2},\d{3}` at the head of a string, returning
the rest on success. -/
def matchTimestamp : Str → Option Str
  | d1 :: d2 :: c1 :: d3 :: d4 :: c2 :: d5 :: d6 :: c3 :: d7 :: d8 :: d9 :: rest =>
    if d1.isDigit && d2.isDigit && c1 = ':' && d3.isDigit && d4.isDigit && c2 = ':'
        && d5.isDigit && d6.isDigit && c3 = ',' && d7.isDigit && d8.isDigit
        && d9.isDigit
    then some rest else none
  | _ => none

/-- `TIME_RE.match(line)` for a line containing no newline: the anchored
regex `^\d{2}:\d{2}:\d{2},\d{3}\s*-->\s*\d{2}:\d{2}:\d{2},\d{3}.*$`. -/
def timeRe (s : Str) : Bool :=
  match matchTimestamp s with
  | none => false
  | some r1 =>
    match r1.dropWhile pySpace with
    | '-' :: '-' :: '>' :: r3 =>
      (matchTimestamp (r3.dropWhile pySpace)).isSome
    | _ => false

/-- One subtitle block (`SrtBlock` dataclass): index, timecode line,
text lines. -/
structure SrtBlock where
  index : Nat
  timecode : Str
  lines : List Str
  deriving DecidableEq

/-- The scanning loop of `parse_srt` over the list of lines. -/
def parseBlocks (ls : List Str) : List SrtBlock :=
  match ls with
  | [] => []
  | l :: rest =>
    -- skip blank lines
    if pyStrip l = [] then parseBlocks rest
    -- `if not idx_line.isdigit(): i += 1; continue`
    else if ¬ isDigitStr (pyStrip l) then parseBlocks rest
    else
      match rest with
      | [] => []  -- `if i >= n: break`
      | tl :: rest2 =>
        -- `if not TIME_RE.match(timecode): i += 1; continue`
        if ¬ timeRe (pyStrip tl) then parseBlocks rest2
        else
          -- collect text lines up to a blank line, then skip the blank
          ⟨strToNat (pyStrip l), pyStrip tl,
            rest2.takeWhile (fun x => pyStrip x ≠ [])⟩ ::
            parseBlocks (rest2.dropWhile (fun x => pyStrip x ≠ [])).tail
  termination_by ls.length
  decreasing_by
  all_goals simp only [List.length_cons]
  all_goals first
  | omega
  | (have h1 : (rest2.dropWhile (fun x => pyStrip x ≠ [])).length ≤ rest2.length :=
      List.Sublist.length_le (List.dropWhile_sublist _)
     have h2 : (rest2.dropWhile (fun x => pyStrip x ≠ [])).tail.length ≤
        (rest2.dropWhile (fun x => pyStrip x ≠ [])).length := by
       cases rest2.dropWhile (fun x => pyStrip x ≠ []) <;> simp
     omega)

/-- The line list built by `write_srt`: per block, the index line, the
timecode line, the text lines, then a blank separator. -/
def writeLines (blocks : List SrtBlock) : List Str :=
  blocks.flatMap (fun b => natToStr b.index :: b.timecode :: (b.lines ++ [[]]))

/-- Python `"\n".join(lines)`. -/
def joinNl : List Str → Str
  | [] => []
  | [l] => l
  | l :: rest => l ++ '\n' :: joinNl rest

/-- Python `s.split("\n")`. -/
def splitNl : Str → List Str
  | [] => [[]]
  | c :: rest =>
    if c = '\n' then [] :: splitNl rest
    else
      match splitNl rest with
      | [] => [[c]]
      | l :: ls => (c :: l) :: ls

/-- Python `s.rstrip("\n")`. -/
def rstripNl (s : Str) : Str := (s.reverse.dropWhile (fun c => c = '\n')).reverse

/-- Python `text.replace("\r\n", "\n")` (left-to-right, non-overlapping). -/
def replaceCrLf : Str → Str
  | '\r' :: '\n' :: rest => '\n' :: replaceCrLf rest
  | c :: rest => c :: replaceCrLf rest
  | [] => []

/-- Python `text.replace("\r", "\n")`. -/
def replaceCr (s : Str) : Str := s.map (fun c => if c = '\r' then '\n' else c)

/-- The line-ending normalization at the top of `parse_srt`. -/
def normalizeNl (s : Str) : Str := replaceCr (replaceCrLf s)

/-- `parse_srt(text)` from `translate_srt.py`. -/
def parse_srt (s : Str) : List SrtBlock := parseBlocks (splitNl (normalizeNl s))

/-- The text written by `write_srt(blocks, path, encoding)`:
`"\n".join(out_lines).rstrip("\n") + "\n"`. -/
def write_srt (blocks : List SrtBlock) : Str :=
  rstripNl (joinNl (writeLines blocks)) ++ ['\n']

theorem charVal_digitCh {d : Nat} (h : d < 10) : charVal (digitCh d) = d := by
  interval_cases d <;> decide

theorem digitCh_isDigit {d : Nat} (h : d < 10) : (digitCh d).isDigit = true := by
  interval_cases d <;> decide

theorem foldr_digits_eq_ofDigits :
    ∀ L : List Nat, (∀ d ∈ L, d < 10) →
      L.foldr (fun d a => 10 * a + charVal (digitCh d)) 0 = Nat.ofDigits 10 L := by
  intro L
  induction L with
  | nil => intro _; simp [Nat.ofDigits]
  | cons d L ih =>
    intro h
    have hd : d < 10 := h d (List.mem_cons_self d L)
    have hL := ih (fun x hx => h x (List.mem_cons_of_mem d hx))
    simp only [List.foldr_cons, hL, Nat.ofDigits_cons, charVal_digitCh hd]
    omega

/-- `int(str(n)) = n`. -/
theorem strToNat_natToStr (n : Nat) : strToNat (natToStr n) = n := by
  by_cases h0 : n = 0
  · subst h0; decide
  · unfold natToStr strToNat
    rw [if_neg h0, List.foldl_reverse, List.foldr_map]
    have hlt : ∀ d ∈ Nat.digits 10 n, d < 10 :=
      fun d hd => Nat.digits_lt_base (by norm_num) hd
    rw [foldr_digits_eq_ofDigits (Nat.digits 10 n) hlt, Nat.ofDigits_digits]

theorem natToStr_all_digit (n : Nat) : ∀ c ∈ natToStr n, c.isDigit = true := by
  intro c hc
  unfold natToStr at hc
  by_cases h0 : n = 0
  · rw [if_pos h0, List.mem_singleton] at hc
    subst hc; decide
  · rw [if_neg h0, List.mem_reverse, List.mem_map] at hc
    obtain ⟨d, hd, hdc⟩ := hc
    subst hdc
    exact digitCh_isDigit (Nat.digits_lt_base (by norm_num) hd)

theorem natToStr_ne_nil (n : Nat) : natToStr n ≠ [] := by
  unfold natToStr
  by_cases h0 : n = 0
  · rw [if_pos h0]; simp
  · rw [if_neg h0]
    simp only [ne_eq, List.reverse_eq_nil_iff, List.map_eq_nil_iff]
    exact Nat.digits_ne_nil_iff_ne_zero.mpr h0

theorem isDigitStr_natToStr (n : Nat) : isDigitStr (natToStr n) = true := by
  unfold isDigitStr
  rw [Bool.and_eq_true]
  constructor
  · cases h : natToStr n with
    | nil => exact absurd h (natToStr_ne_nil n)
    | cons c t => simp
  · rw [List.all_eq_true]
    exact natToStr_all_digit n

theorem isDigit_not_pySpace {c : Char} (h : c.isDigit = true) : pySpace c = false := by
  cases hp : pySpace c
  · rfl
  · exfalso
    unfold pySpace at hp
    simp only [Bool.or_eq_true, decide_eq_true_eq] at hp
    rcases hp with ((((h1 | h2) | h3) | h4) | h5) | h6 <;> (subst_vars; simp [Char.isDigit] at h)

theorem dropWhile_eq_self_of_none {p : Char → Bool} {l : Str}
    (h : ∀ c ∈ l, p c = false) : l.dropWhile p = l := by
  cases l with
  | nil => rfl
  | cons c t =>
    rw [List.dropWhile_cons, h c (List.mem_cons_self c t)]
    simp

theorem pyStrip_eq_self_of_no_space {s : Str}
    (h : ∀ c ∈ s, pySpace c = false) : pyStrip s = s := by
  unfold pyStrip
  rw [dropWhile_eq_self_of_none h,
    dropWhile_eq_self_of_none (fun c hc => h c (List.mem_reverse.mp hc)),
    List.reverse_reverse]

theorem pyStrip_natToStr (n : Nat) : pyStrip (natToStr n) = natToStr n :=
  pyStrip_eq_self_of_no_space
    (fun c hc => isDigit_not_pySpace (natToStr_all_digit n c hc))

theorem dropWhile_head_false {p : Char → Bool} :
    ∀ {l : Str} {c : Char}, (l.dropWhile p).head? = some c → p c = false := by
  intro l
  induction l with
  | nil => intro c h; simp at h
  | cons x xs ih =>
    intro c h
    rw [List.dropWhile_cons] at h
    by_cases hx : p x = true
    · rw [if_pos hx] at h
      exact ih h
    · rw [if_neg hx] at h
      simp only [List.head?_cons, Option.some.injEq] at h
      subst h
      exact Bool.not_eq_true _ ▸ hx

theorem dropWhile_idem {p : Char → Bool} (l : Str) :
    (l.dropWhile p).dropWhile p = l.dropWhile p := by
  cases h : l.dropWhile p with
  | nil => rfl
  | cons c t =>
    have hc : p c = false := dropWhile_head_false (by rw [h]; rfl)
    rw [List.dropWhile_cons, hc]
    simp

theorem getLast?_dropWhile {p : Char → Bool} :
    ∀ {l : Str}, l.dropWhile p ≠ [] → (l.dropWhile p).getLast? = l.getLast? := by
  intro l
  induction l with
  | nil => intro h; simp at h
  | cons x xs ih =>
    intro h
    rw [List.dropWhile_cons]
    by_cases hx : p x = true
    · rw [List.dropWhile_cons, if_pos hx] at h
      rw [if_pos hx, ih h]
      have hxs : xs ≠ [] := by
        intro hnil
        subst hnil
        simp [List.dropWhile] at h
      cases xs with
      | nil => exact absurd rfl hxs
      | cons y ys => simp
    · rw [if_neg hx]

theorem pyStrip_idem (s : Str) : pyStrip (pyStrip s) = pyStrip s := by
  unfold pyStrip
  set A := s.dropWhile pySpace with hA
  set B := A.reverse.dropWhile pySpace with hB
  have hBdrop : B.dropWhile pySpace = B := hB ▸ dropWhile_idem A.reverse
  by_cases hBnil : B = []
  · rw [hBnil]; rfl
  · have hfirst : B.reverse.dropWhile pySpace = B.reverse := by
      cases hrv : B.reverse with
      | nil => rfl
      | cons c t =>
        have hhead : B.reverse.head? = some c := by rw [hrv]; rfl
        rw [List.head?_reverse] at hhead
        have hlast : B.getLast? = A.reverse.getLast? := hB ▸ getLast?_dropWhile (hB ▸ hBnil)
        rw [hlast, List.getLast?_reverse] at hhead
        have hc : pySpace c = false := dropWhile_head_false (hA ▸ hhead)
        rw [List.dropWhile_cons, hc]
        simp
    rw [hfirst, List.reverse_reverse, hBdrop]

theorem mem_pyStrip {c : Char} {s : Str} (h : c ∈ pyStrip s) : c ∈ s := by
  unfold pyStrip at h
  rw [List.mem_reverse] at h
  have h2 := List.Sublist.mem h (List.dropWhile_sublist _)
  rw [List.mem_reverse] at h2
  exact List.Sublist.mem h2 (List.dropWhile_sublist _)

theorem splitNl_ne_nil (s : Str) : splitNl s ≠ [] := by
  induction s with
  | nil => simp [splitNl]
  | cons c rest ih =>
    simp only [splitNl]
    by_cases hc : c = '\n'
    · rw [if_pos hc]; simp
    · rw [if_neg hc]
      cases h : splitNl rest <;> simp

theorem no_nl_of_mem_splitNl : ∀ {s : Str} {l : Str}, l ∈ splitNl s → '\n' ∉ l := by
  intro s
  induction s with
  | nil =>
    intro l hl
    simp [splitNl] at hl
    subst hl
    simp
  | cons c rest ih =>
    intro l hl
    simp only [splitNl] at hl
    by_cases hc : c = '\n'
    · rw [if_pos hc] at hl
      rcases List.mem_cons.mp hl with h | h
      · subst h; simp
      · exact ih h
    · rw [if_neg hc] at hl
      cases hsp : splitNl rest with
      | nil => exact absurd hsp (splitNl_ne_nil rest)
      | cons m ms =>
        rw [hsp] at hl
        rcases List.mem_cons.mp hl with h | h
        · subst h
          intro hmem
          rcases List.mem_cons.mp hmem with h | h
          · exact hc h.symm
          · exact ih (hsp ▸ List.mem_cons_self m ms) h
        · exact ih (hsp ▸ List.mem_cons_of_mem m h)

theorem mem_of_mem_splitNl : ∀ {s l : Str} {c : Char},
    l ∈ splitNl s → c ∈ l → c ∈ s := by
  intro s
  induction s with
  | nil =>
    intro l c hl hc
    simp [splitNl] at hl
    subst hl
    simp at hc
  | cons x rest ih =>
    intro l c hl hc
    simp only [splitNl] at hl
    by_cases hx : x = '\n'
    · rw [if_pos hx] at hl
      rcases List.mem_cons.mp hl with h | h
      · subst h; simp at hc
      · exact List.mem_cons_of_mem x (ih h hc)
    · rw [if_neg hx] at hl
      cases hsp : splitNl rest with
      | nil => exact absurd hsp (splitNl_ne_nil rest)
      | cons m ms =>
        rw [hsp] at hl
        rcases List.mem_cons.mp hl with h | h
        · subst h
          rcases List.mem_cons.mp hc with h | h
          · subst h; exact List.mem_cons_self c rest
          · exact List.mem_cons_of_mem x (ih (hsp ▸ List.mem_cons_self m ms) h)
        · exact List.mem_cons_of_mem x (ih (hsp ▸ List.mem_cons_of_mem m h) hc)

theorem splitNl_of_no_nl : ∀ {s : Str}, '\n' ∉ s → splitNl s = [s] := by
  intro s
  induction s with
  | nil => intro _; rfl
  | cons c rest ih =>
    intro h
    have hc : ¬(c = '\n') := fun he => h (he ▸ List.mem_cons_self c rest)
    have hrest : '\n' ∉ rest := fun hm => h (List.mem_cons_of_mem c hm)
    simp only [splitNl, if_neg hc, ih hrest]

theorem splitNl_append_nl : ∀ {x t : Str}, '\n' ∉ x →
    splitNl (x ++ '\n' :: t) = x :: splitNl t := by
  intro x
  induction x with
  | nil => intro t _; simp [splitNl]
  | cons c x' ih =>
    intro t h
    have hc : ¬(c = '\n') := fun he => h (he ▸ List.mem_cons_self c x')
    have hx' : '\n' ∉ x' := fun hm => h (List.mem_cons_of_mem c hm)
    simp only [List.cons_append, splitNl, if_neg hc]
    have hxa : x'.append ('\n' :: t) = x' ++ '\n' :: t := rfl
    rw [hxa, ih hx']

theorem splitNl_joinNl : ∀ {xss : List Str}, xss ≠ [] →
    (∀ l ∈ xss, '\n' ∉ l) → splitNl (joinNl xss) = xss := by
  intro xss
  induction xss with
  | nil => intro h _; exact absurd rfl h
  | cons x rest ih =>
    intro _ hml
    cases rest with
    | nil =>
      simp only [joinNl]
      exact splitNl_of_no_nl (hml x (List.mem_cons_self x []))
    | cons y t =>
      have hx : '\n' ∉ x := hml x (List.mem_cons_self x (y :: t))
      have hrest : ∀ l ∈ y :: t, '\n' ∉ l :=
        fun l hl => hml l (List.mem_cons_of_mem x hl)
      show splitNl (x ++ '\n' :: joinNl (y :: t)) = x :: (y :: t)
      rw [splitNl_append_nl hx, ih (by simp) hrest]

theorem joinNl_append : ∀ {l₁ l₂ : List Str}, l₁ ≠ [] → l₂ ≠ [] →
    joinNl (l₁ ++ l₂) = joinNl l₁ ++ '\n' :: joinNl l₂ := by
  intro l₁
  induction l₁ with
  | nil => intro l₂ h _; exact absurd rfl h
  | cons x rest ih =>
    intro l₂ _ h₂
    cases rest with
    | nil =>
      cases l₂ with
      | nil => exact absurd rfl h₂
      | cons z w => simp [joinNl]
    | cons y t =>
      show joinNl (x :: ((y :: t) ++ l₂)) = (x ++ '\n' :: joinNl (y :: t)) ++ '\n' :: joinNl l₂
      have : joinNl (x :: ((y :: t) ++ l₂)) = x ++ '\n' :: joinNl ((y :: t) ++ l₂) := rfl
      rw [this, ih (by simp) h₂]
      simp

theorem mem_joinNl : ∀ {xss : List Str} {c : Char},
    c ∈ joinNl xss → c = '\n' ∨ ∃ l ∈ xss, c ∈ l := by
  intro xss
  induction xss with
  | nil => intro c hc; simp [joinNl] at hc
  | cons x rest ih =>
    intro c hc
    cases rest with
    | nil =>
      simp only [joinNl] at hc
      exact Or.inr ⟨x, List.mem_cons_self x [], hc⟩
    | cons y t =>
      have : joinNl (x :: y :: t) = x ++ '\n' :: joinNl (y :: t) := rfl
      rw [this, List.mem_append] at hc
      rcases hc with h | h
      · exact Or.inr ⟨x, List.mem_cons_self x (y :: t), h⟩
      · rcases List.mem_cons.mp h with h | h
        · exact Or.inl h
        · rcases ih h with h | ⟨l, hl, hcl⟩
          · exact Or.inl h
          · exact Or.inr ⟨l, List.mem_cons_of_mem x hl, hcl⟩

theorem joinNl_getLast? : ∀ {ys : List Str} {w : Str},
    ys.getLast? = some w → w ≠ [] → (joinNl ys).getLast? = w.getLast? := by
  intro ys
  induction ys with
  | nil => intro w h _; simp at h
  | cons y rest ih =>
    intro w h hw
    cases rest with
    | nil =>
      simp only [List.getLast?_singleton, Option.some.injEq] at h
      subst h
      rfl
    | cons y2 t =>
      rw [List.getLast?_cons_cons] at h
      have hj := ih h hw
      have hjne : joinNl (y2 :: t) ≠ [] := by
        intro hnil
        rw [hnil] at hj
        cases w with
        | nil => exact hw rfl
        | cons a b => simp [List.getLast?] at hj
      have : joinNl (y :: y2 :: t) = y ++ '\n' :: joinNl (y2 :: t) := rfl
      rw [this, List.getLast?_append]
      cases hjj : joinNl (y2 :: t) with
      | nil => exact absurd hjj hjne
      | cons a b =>
        rw [hjj] at hj
        rw [List.getLast?_cons_cons, hj]
        obtain ⟨ww, hww⟩ := Option.isSome_iff_exists.mp
          (by rw [List.getLast?_isSome]; exact hw)
        rw [hww]
        rfl

theorem rstripNl_append_nl {s : Str} {c : Char}
    (h : s.getLast? = some c) (hc : c ≠ '\n') : rstripNl (s ++ ['\n']) = s := by
  unfold rstripNl
  have hrv : (s ++ ['\n']).reverse = '\n' :: s.reverse := by
    rw [List.reverse_append]; rfl
  rw [hrv, List.dropWhile_cons_of_pos (by decide)]
  have hhead : s.reverse.head? = some c := by rw [List.head?_reverse]; exact h
  cases hsr : s.reverse with
  | nil => rw [hsr] at hhead; simp at hhead
  | cons a b =>
    rw [hsr] at hhead
    have hac : a = c := by
      have h2 : some a = some c := by rw [← hhead]; rfl
      injection h2
    rw [List.dropWhile_cons_of_neg]
    · rw [← hsr, List.reverse_reverse]
    · subst hac
      simp only [decide_eq_true_eq]
      exact hc

theorem replaceCrLf_cons_of_ne {c : Char} {rest : Str} (hc : c ≠ '\r') :
    replaceCrLf (c :: rest) = c :: replaceCrLf rest := by
  rw [replaceCrLf.eq_def]
  split
  · rename_i rest1 heq
    injection heq with h1 h2
    exact absurd h1 hc
  · rename_i c1 rest1 heq
    injection heq with h1 h2
    rw [h1, h2]
  · rename_i heq
    cases heq

theorem replaceCrLf_eq_self : ∀ (s : Str), '\r' ∉ s → replaceCrLf s = s := by
  intro s
  induction s with
  | nil => intro _; rfl
  | cons c rest ih =>
    intro h
    have hrest : '\r' ∉ rest := fun hm => h (List.mem_cons_of_mem c hm)
    have hc : c ≠ '\r' := fun he => h (he ▸ List.mem_cons_self c rest)
    rw [replaceCrLf_cons_of_ne hc, ih hrest]

theorem not_cr_mem_replaceCr (s : Str) : '\r' ∉ replaceCr s := by
  unfold replaceCr
  intro h
  rw [List.mem_map] at h
  obtain ⟨c, _, hc⟩ := h
  by_cases h1 : c = '\r'
  · rw [if_pos h1] at hc
    exact absurd hc (by decide)
  · rw [if_neg h1] at hc
    exact h1 hc

theorem replaceCr_eq_self {s : Str} (h : '\r' ∉ s) : replaceCr s = s := by
  unfold replaceCr
  have : s.map (fun c => if c = '\r' then '\n' else c) = s.map id := by
    apply List.map_congr_left
    intro c hc
    have : c ≠ '\r' := fun he => h (he ▸ hc)
    rw [if_neg this]
    rfl
  rw [this, List.map_id]

theorem normalizeNl_eq_self {s : Str} (h : '\r' ∉ s) : normalizeNl s = s := by
  unfold normalizeNl
  rw [replaceCrLf_eq_self s h, replaceCr_eq_self h]

theorem not_cr_mem_normalizeNl (s : Str) : '\r' ∉ normalizeNl s :=
  not_cr_mem_replaceCr _

theorem takeWhile_append_stop {α : Type} {p : α → Bool} :
    ∀ {xs : List α} {y : α} {zs : List α}, (∀ x ∈ xs, p x = true) → p y = false →
    (xs ++ y :: zs).takeWhile p = xs ∧ (xs ++ y :: zs).dropWhile p = y :: zs := by
  intro xs
  induction xs with
  | nil =>
    intro y zs _ hy
    constructor
    · rw [List.nil_append, List.takeWhile_cons, hy]
      simp
    · rw [List.nil_append, List.dropWhile_cons_of_neg (by rw [hy]; simp)]
  | cons x xs ih =>
    intro y zs hall hy
    have hx : p x = true := hall x (List.mem_cons_self x xs)
    have hxs : ∀ a ∈ xs, p a = true := fun a ha => hall a (List.mem_cons_of_mem x ha)
    obtain ⟨h1, h2⟩ := @ih y zs hxs hy
    constructor
    · rw [List.cons_append, List.takeWhile_cons, hx]
      simp only [if_true, h1]
    · rw [List.cons_append, List.dropWhile_cons_of_pos hx, h2]

theorem parseBlocks_cons_blank {l : Str} {rest : List Str} (h : pyStrip l = []) :
    parseBlocks (l :: rest) = parseBlocks rest := by
  rw [parseBlocks.eq_def]
  simp [h]

theorem parseBlocks_cons_block {l tl : Str} {rest2 : List Str}
    (h1 : pyStrip l ≠ []) (h2 : isDigitStr (pyStrip l) = true)
    (h3 : timeRe (pyStrip tl) = true) :
    parseBlocks (l :: tl :: rest2) =
      ⟨strToNat (pyStrip l), pyStrip tl,
        rest2.takeWhile (fun x => pyStrip x ≠ [])⟩ ::
        parseBlocks (rest2.dropWhile (fun x => pyStrip x ≠ [])).tail := by
  rw [parseBlocks.eq_def]
  simp [h1, h2, h3]

/-- A line as it comes out of `splitNl (normalizeNl _)`: no newline, no
carriage return. -/
def GoodLine (l : Str) : Prop := '\n' ∉ l ∧ '\r' ∉ l

/-- The invariant satisfied by every block `parse_srt` produces: the
timecode is already stripped, matches the timecode regex and is free of
line breaks; every text line is non-blank and free of line breaks. -/
def GoodBlock (b : SrtBlock) : Prop :=
  pyStrip b.timecode = b.timecode ∧ timeRe b.timecode = true ∧
  GoodLine b.timecode ∧
  ∀ l ∈ b.lines, pyStrip l ≠ [] ∧ GoodLine l

theorem goodLine_of_mem_pyStrip {l : Str} (h : GoodLine l) : GoodLine (pyStrip l) :=
  ⟨fun hm => h.1 (mem_pyStrip hm), fun hm => h.2 (mem_pyStrip hm)⟩

theorem parseBlocks_good :
    ∀ (ls : List Str), (∀ l ∈ ls, GoodLine l) →
    ∀ b ∈ parseBlocks ls, GoodBlock b := by
  intro ls
  induction ls using parseBlocks.induct with
  | case1 =>
    intro _ b hb
    simp [parseBlocks] at hb
  | case2 l rest hblank ih =>
    intro h b hb
    rw [parseBlocks_cons_blank hblank] at hb
    exact ih (fun x hx => h x (List.mem_cons_of_mem l hx)) b hb
  | case3 l rest hblank hdig ih =>
    intro h b hb
    rw [parseBlocks.eq_def] at hb
    simp only [if_neg hblank, if_pos hdig] at hb
    exact ih (fun x hx => h x (List.mem_cons_of_mem l hx)) b hb
  | case4 l hblank hdig =>
    intro h b hb
    rw [parseBlocks.eq_def] at hb
    simp only [if_neg hblank] at hb
    rw [not_not] at hdig
    simp only [hdig] at hb
    simp at hb
  | case5 l hblank hdig tl rest2 htime ih =>
    intro h b hb
    rw [parseBlocks.eq_def] at hb
    rw [not_not] at hdig
    simp only [if_neg hblank, hdig, if_pos htime] at hb
    simp only [not_true, if_false, ite_false, if_neg htime] at hb
    exact ih (fun x hx => h x (List.mem_cons_of_mem l (List.mem_cons_of_mem tl hx))) b hb
  | case6 l hblank hdig tl rest2 htime ih =>
    intro h b hb
    rw [not_not] at hdig htime
    rw [parseBlocks_cons_block hblank hdig htime] at hb
    rcases List.mem_cons.mp hb with hb | hb
    · subst hb
      have htl : GoodLine tl := h tl (List.mem_cons_of_mem l (List.mem_cons_self tl rest2))
      refine ⟨pyStrip_idem tl, htime, goodLine_of_mem_pyStrip htl, ?_⟩
      intro x hx
      have hx2 : x ∈ rest2 := List.Sublist.mem hx (List.takeWhile_sublist _)
      have hgood : GoodLine x :=
        h x (List.mem_cons_of_mem l (List.mem_cons_of_mem tl hx2))
      have hp := List.mem_takeWhile_imp hx
      simp only [decide_eq_true_eq] at hp
      exact ⟨hp, hgood⟩
    · apply ih _ b hb
      intro x hx
      have hx2 : x ∈ rest2 := by
        have hs1 := List.Sublist.mem hx (List.tail_sublist _)
        exact List.Sublist.mem hs1 (List.dropWhile_sublist _)
      exact h x (List.mem_cons_of_mem l (List.mem_cons_of_mem tl hx2))

theorem mem_of_getLast?_eq {α : Type} {l : List α} {a : α}
    (h : l.getLast? = some a) : a ∈ l := by
  have hne : l ≠ [] := by
    rw [← List.getLast?_isSome] at *
    rw [h]
    rfl
  rw [List.getLast?_eq_getLast l hne] at h
  injection h with h1
  rw [← h1]
  exact List.getLast_mem hne

theorem timeRe_ne_nil {s : Str} (h : timeRe s = true) : s ≠ [] := by
  intro hnil
  subst hnil
  exact absurd h (by decide)

theorem getLast?_cons_cons_ne {α : Type} (x1 x2 : α) {l : List α} (h : l ≠ []) :
    (x1 :: x2 :: l).getLast? = l.getLast? := by
  rw [List.getLast?_cons_cons]
  cases l with
  | nil => exact absurd rfl h
  | cons a b => rw [List.getLast?_cons_cons]

theorem writeLines_ne_nil {blocks : List SrtBlock} (h : blocks ≠ []) :
    writeLines blocks ≠ [] := by
  cases blocks with
  | nil => exact absurd rfl h
  | cons b bs =>
    unfold writeLines
    rw [List.flatMap_cons]
    simp

theorem writeLines_decomp :
    ∀ (blocks : List SrtBlock), blocks ≠ [] → (∀ b ∈ blocks, GoodBlock b) →
    ∃ ys w, writeLines blocks = ys ++ [[]] ∧ ys ≠ [] ∧
      ys.getLast? = some w ∧ w ≠ [] ∧ '\n' ∉ w := by
  intro blocks
  induction blocks with
  | nil => intro h _; exact absurd rfl h
  | cons b bs ih =>
    intro _ hgood
    obtain ⟨hstrip, htime, hgoodtc, hlines⟩ := hgood b (List.mem_cons_self b bs)
    by_cases hbs : bs = []
    · subst hbs
      refine ⟨natToStr b.index :: b.timecode :: b.lines, ?_⟩
      have hw : writeLines [b] =
          (natToStr b.index :: b.timecode :: b.lines) ++ [[]] := by
        unfold writeLines
        rw [List.flatMap_cons]
        simp
      cases hls : b.lines.getLast? with
      | none =>
        have hlnil : b.lines = [] := by
          by_contra hne
          have hsome := List.getLast?_isSome.mpr hne
          rw [hls] at hsome
          simp at hsome
        refine ⟨b.timecode, hw, by simp, ?_, timeRe_ne_nil htime, hgoodtc.1⟩
        rw [hlnil]
        rfl
      | some w =>
        have hwmem : w ∈ b.lines := mem_of_getLast?_eq hls
        have hlnnil : b.lines ≠ [] := by
          intro hnil
          rw [hnil] at hls
          simp at hls
        obtain ⟨hwne, hwgood⟩ := hlines w hwmem
        refine ⟨w, hw, by simp, ?_, ?_, hwgood.1⟩
        · rw [getLast?_cons_cons_ne _ _ hlnnil]
          exact hls
        · intro hnil
          rw [hnil] at hwne
          exact hwne rfl
    · obtain ⟨ys, w, hys, hysne, hyslast, hwne, hwnl⟩ := ih hbs
        (fun x hx => hgood x (List.mem_cons_of_mem b hx))
      refine ⟨(natToStr b.index :: b.timecode :: (b.lines ++ [[]])) ++ ys, w, ?_, by simp, ?_, hwne, hwnl⟩
      · have hw : writeLines (b :: bs) =
            (natToStr b.index :: b.timecode :: (b.lines ++ [[]])) ++ writeLines bs := by
          unfold writeLines
          rw [List.flatMap_cons]
        rw [hw, hys, List.append_assoc]
      · rw [List.getLast?_append, hyslast]
        rfl

theorem write_srt_good {blocks : List SrtBlock} (hne : blocks ≠ [])
    (hgood : ∀ b ∈ blocks, GoodBlock b) :
    write_srt blocks = joinNl (writeLines blocks) := by
  obtain ⟨ys, w, hys, hysne, hyslast, hwne, hwnl⟩ := writeLines_decomp blocks hne hgood
  unfold write_srt
  rw [hys, joinNl_append hysne (by simp)]
  have hj1 : joinNl [([] : Str)] = [] := rfl
  rw [hj1]
  have hjlast : (joinNl ys).getLast? = w.getLast? := joinNl_getLast? hyslast hwne
  obtain ⟨c, hc⟩ := Option.isSome_iff_exists.mp
    (by rw [List.getLast?_isSome]; exact hwne)
  have hcne : c ≠ '\n' := fun he => hwnl (he ▸ mem_of_getLast?_eq hc)
  have hclast : (joinNl ys).getLast? = some c := by rw [hjlast]; exact hc
  rw [rstripNl_append_nl hclast hcne]

theorem goodLine_mem_writeLines {blocks : List SrtBlock}
    (hgood : ∀ b ∈ blocks, GoodBlock b) :
    ∀ l ∈ writeLines blocks, '\n' ∉ l ∧ '\r' ∉ l := by
  intro l hl
  unfold writeLines at hl
  rw [List.mem_flatMap] at hl
  obtain ⟨b, hb, hlb⟩ := hl
  obtain ⟨_, _, hgoodtc, hlines⟩ := hgood b hb
  rcases List.mem_cons.mp hlb with h | h
  · subst h
    constructor
    · intro hm
      have := natToStr_all_digit b.index _ hm
      exact absurd this (by decide)
    · intro hm
      have := natToStr_all_digit b.index _ hm
      exact absurd this (by decide)
  · rcases List.mem_cons.mp h with h | h
    · subst h
      exact ⟨hgoodtc.1, hgoodtc.2⟩
    · rw [List.mem_append] at h
      rcases h with h | h
      · exact ⟨(hlines l h).2.1, (hlines l h).2.2⟩
      · rw [List.mem_singleton] at h
        subst h
        simp

theorem parseBlocks_writeLines :
    ∀ (blocks : List SrtBlock), (∀ b ∈ blocks, GoodBlock b) →
    parseBlocks (writeLines blocks) = blocks := by
  intro blocks
  induction blocks with
  | nil =>
    intro _
    have h0 : writeLines [] = ([] : List Str) := rfl
    rw [h0]
    simp [parseBlocks]
  | cons b bs ih =>
    intro h
    obtain ⟨hstrip, htime, hgoodtc, hlines⟩ := h b (List.mem_cons_self b bs)
    have hbs := fun x hx => h x (List.mem_cons_of_mem b hx)
    have hw : writeLines (b :: bs) =
        natToStr b.index :: b.timecode :: (b.lines ++ [] :: writeLines bs) := by
      unfold writeLines
      rw [List.flatMap_cons]
      simp
    rw [hw]
    rw [parseBlocks_cons_block (by rw [pyStrip_natToStr]; exact natToStr_ne_nil b.index)
      (by rw [pyStrip_natToStr]; exact isDigitStr_natToStr b.index)
      (by rw [hstrip]; exact htime)]
    have hall : ∀ x ∈ b.lines, (fun x => decide (pyStrip x ≠ [])) x = true := by
      intro x hx
      simp only [decide_eq_true_eq]
      exact (hlines x hx).1
    have hy : (fun x => decide (pyStrip x ≠ [])) ([] : Str) = false := by
      simp [pyStrip_nil]
    obtain ⟨ht1, ht2⟩ :=
      @takeWhile_append_stop Str (fun x => decide (pyStrip x ≠ []))
        b.lines [] (writeLines bs) hall hy
    rw [ht1, ht2, pyStrip_natToStr, strToNat_natToStr, hstrip]
    have htail : (([] : Str) :: writeLines bs).tail = writeLines bs := rfl
    rw [htail, ih hbs]

/-- C7: the SRT round trip — re-parsing the text that `write_srt` builds
from `parse_srt x`'s blocks yields exactly the same sequence of
(index, timecode, lines) blocks, for every input string `x`. -/
theorem srt_roundtrip (x : Str) :
    parse_srt (write_srt (parse_srt x)) = parse_srt x := by
  have hgoodlines : ∀ l ∈ splitNl (normalizeNl x), GoodLine l := by
    intro l hl
    exact ⟨no_nl_of_mem_splitNl hl,
      fun hm => not_cr_mem_normalizeNl x (mem_of_mem_splitNl hl hm)⟩
  have hgood : ∀ b ∈ parse_srt x, GoodBlock b := parseBlocks_good _ hgoodlines
  by_cases hnil : parse_srt x = []
  · rw [hnil]
    have h1 : write_srt ([] : List SrtBlock) = ['\n'] := rfl
    rw [h1]
    show parseBlocks (splitNl (normalizeNl ['\n'])) = []
    have h2 : splitNl (normalizeNl ['\n']) = [[], []] := rfl
    rw [h2, parseBlocks_cons_blank pyStrip_nil, parseBlocks_cons_blank pyStrip_nil]
    simp [parseBlocks]
  · rw [write_srt_good hnil hgood]
    have hnonl : ∀ l ∈ writeLines (parse_srt x), '\n' ∉ l :=
      fun l hl => (goodLine_mem_writeLines hgood l hl).1
    have hnr : '\r' ∉ joinNl (writeLines (parse_srt x)) := by
      intro hm
      rcases mem_joinNl hm with h | ⟨l, hl, hcl⟩
      · exact absurd h (by decide)
      · exact (goodLine_mem_writeLines hgood l hl).2 hcl
    show parseBlocks (splitNl (normalizeNl (joinNl (writeLines (parse_srt x))))) =
      parse_srt x
    rw [normalizeNl_eq_self hnr,
      splitNl_joinNl (writeLines_ne_nil hnil) hnonl,
      parseBlocks_writeLines _ hgood]

/-! ## The markup protector (`protect_tags`, `restore_tags`, `TAG_RE`) -/

/-- The character class `[^>]` of `TAG_RE`. -/
def notGt (c : Char) : Bool := c != '>'

/-- Try to match the first `TAG_RE` alternative `<[^>]+>` at the head of
the string; on success return the matched text and the rest. -/
def tryAngle : Str → Option (Str × Str)
  | '<' :: rest =>
    match rest.dropWhile notGt with
    | '>' :: after =>
      if (rest.takeWhile notGt).isEmpty then none
      else some ('<' :: rest.takeWhile notGt ++ ['>'], after)
    | _ => none
  | _ => none

/-- Try to match the second `TAG_RE` alternative `{\\\w+\d*}` (a brace,
a backslash, a non-empty run of word characters, a closing brace) at the
head of the string. -/
def tryBrace : Str → Option (Str × Str)
  | '{' :: '\\' :: rest =>
    match rest.dropWhile wordChar with
    | '}' :: after =>
      if (rest.takeWhile wordChar).isEmpty then none
      else some ('{' :: '\\' :: rest.takeWhile wordChar ++ ['}'], after)
    | _ => none
  | _ => none

/-- Try to match `TAG_RE` at the head of the string (the two alternatives
start with distinct characters, so the alternation order is immaterial). -/
def tryTag (s : Str) : Option (Str × Str) :=
  match tryAngle s with
  | some r => some r
  | none => tryBrace s

theorem tryAngle_decomp {s m after : Str} (h : tryAngle s = some (m, after)) :
    s = m ++ after ∧ m ≠ [] := by
  unfold tryAngle at h
  split at h
  · rename_i rest
    split at h
    · rename_i after1 hdrop
      split at h
      · exact absurd h (by simp)
      · rename_i hmid
        simp only [Option.some.injEq, Prod.mk.injEq] at h
        obtain ⟨hm, ha⟩ := h
        constructor
        · rw [← hm, ← ha]
          have hsplit : List.takeWhile notGt rest ++ List.dropWhile notGt rest
              = rest := List.takeWhile_append_dropWhile notGt rest
          conv_lhs => rw [← hsplit]
          rw [hdrop]
          simp
        · rw [← hm]
          simp
    · exact absurd h (by simp)
  · exact absurd h (by simp)

theorem tryBrace_decomp {s m after : Str} (h : tryBrace s = some (m, after)) :
    s = m ++ after ∧ m ≠ [] := by
  unfold tryBrace at h
  split at h
  · rename_i rest
    split at h
    · rename_i after1 hdrop
      split at h
      · exact absurd h (by simp)
      · rename_i hmid
        simp only [Option.some.injEq, Prod.mk.injEq] at h
        obtain ⟨hm, ha⟩ := h
        constructor
        · rw [← hm, ← ha]
          have hsplit : List.takeWhile wordChar rest ++ List.dropWhile wordChar rest
              = rest := List.takeWhile_append_dropWhile wordChar rest
          conv_lhs => rw [← hsplit]
          rw [hdrop]
          simp
        · rw [← hm]
          simp
    · exact absurd h (by simp)
  · exact absurd h (by simp)

theorem tryTag_decomp {s m after : Str} (h : tryTag s = some (m, after)) :
    s = m ++ after ∧ m ≠ [] := by
  unfold tryTag at h
  split at h
  · rename_i r hr
    injection h with h1
    subst h1
    exact tryAngle_decomp hr
  · exact tryBrace_decomp h

theorem tryTag_length {c : Char} {rest m after : Str}
    (h : tryTag (c :: rest) = some (m, after)) : after.length < rest.length + 1 := by
  obtain ⟨hdec, hne⟩ := tryTag_decomp h
  have hlen : (c :: rest).length = m.length + after.length := by
    rw [hdec, List.length_append]
  have hm : 1 ≤ m.length := by
    cases m with
    | nil => exact absurd rfl hne
    | cons a b => simp
  simp only [List.length_cons] at hlen
  omega

/-- The scanning loop of `TAG_RE.sub(replacer, text)` inside
`protect_tags`: `gen k` is the `k`-th generated placeholder
(`f"__TAG_{uuid.uuid4().hex}__"`); each match is replaced by the next
placeholder and the mapping is recorded in match order. -/
def protectLoop (gen : Nat → Str) : Nat → Str → Str × List (Str × Str)
  | _, [] => ([], [])
  | k, c :: rest =>
    match h : tryTag (c :: rest) with
    | some (m, after) =>
      let r := protectLoop gen (k + 1) after
      (gen k ++ r.1, (gen k, m) :: r.2)
    | none =>
      let r := protectLoop gen k rest
      (c :: r.1, r.2)
  termination_by _ s => s.length
  decreasing_by
  · exact tryTag_length h
  · simp

/-- `protect_tags(text)` from `translate_srt.py`, abstracted over the
placeholder generator. -/
def protect_tags (gen : Nat → Str) (text : Str) : Str × List (Str × Str) :=
  protectLoop gen 0 text

/-- Python `text.replace(pat, rep)` for a non-empty `pat` (the
placeholder keys are never empty): scan left to right, replacing
non-overlapping occurrences. -/
def replaceAll (pat rep : Str) : Str → Str
  | [] => []
  | c :: rest =>
    if pat ≠ [] ∧ pat.isPrefixOf (c :: rest) then
      rep ++ replaceAll pat rep ((c :: rest).drop pat.length)
    else
      c :: replaceAll pat rep rest
  termination_by s => s.length
  decreasing_by
  · rename_i hcond
    have hp : pat ≠ [] := hcond.1
    have h1 : 1 ≤ pat.length := by
      cases pat with
      | nil => exact absurd rfl hp
      | cons a b => simp
    simp only [List.length_drop, List.length_cons]
    omega
  · simp

/-- `restore_tags(text, tags)` from `translate_srt.py`: substitute each
placeholder back, in insertion order. -/
def restore_tags (text : Str) (tags : List (Str × Str)) : Str :=
  tags.foldl (fun t kv => replaceAll kv.1 kv.2 t) text

/-- The number of positions at which `pat` occurs in `s`. -/
def countOcc (pat : Str) : Str → Nat
  | [] => if pat.isEmpty then 1 else 0
  | c :: rest => (if pat.isPrefixOf (c :: rest) then 1 else 0) + countOcc pat rest

/-- The freshness precondition on the generated placeholders, mirroring
the `uuid4` uniqueness assumption: at the moment `restore_tags`
substitutes the `k`-th placeholder, that placeholder is non-empty and
occurs exactly once in the text being edited (`X` is the already-restored
prefix of the original text). -/
def tokensFresh (gen : Nat → Str) : Nat → Str → Str → Bool
  | _, _, [] => true
  | k, X, c :: rest =>
    match h : tryTag (c :: rest) with
    | some (m, after) =>
      decide (gen k ≠ []) &&
        decide (countOcc (gen k) (X ++ gen k ++ (protectLoop gen (k + 1) after).1) = 1) &&
        tokensFresh gen (k + 1) (X ++ m) after
    | none => tokensFresh gen k (X ++ [c]) rest
  termination_by _ _ s => s.length
  decreasing_by
  · exact tryTag_length h
  · simp

theorem replaceAll_nil (pat rep : Str) : replaceAll pat rep [] = [] := by
  rw [replaceAll.eq_def]

theorem replaceAll_cons_pos {pat : Str} (rep : Str) {c : Char} {rest : Str}
    (hp : pat ≠ []) (hpre : pat.isPrefixOf (c :: rest) = true) :
    replaceAll pat rep (c :: rest) =
      rep ++ replaceAll pat rep ((c :: rest).drop pat.length) := by
  rw [replaceAll.eq_def]
  simp only [hp, hpre, ne_eq, not_false_iff, true_and, if_true]

theorem replaceAll_cons_neg {pat : Str} (rep : Str) {c : Char} {rest : Str}
    (hpre : pat.isPrefixOf (c :: rest) = false) :
    replaceAll pat rep (c :: rest) = c :: replaceAll pat rep rest := by
  rw [replaceAll.eq_def]
  simp [hpre]

theorem countOcc_cons (pat : Str) (c : Char) (rest : Str) :
    countOcc pat (c :: rest) =
      (if pat.isPrefixOf (c :: rest) then 1 else 0) + countOcc pat rest := by
  rw [countOcc]

theorem replaceAll_of_countOcc_zero {pat rep : Str} :
    ∀ {s : Str}, countOcc pat s = 0 → replaceAll pat rep s = s := by
  intro s
  induction s with
  | nil => intro _; exact replaceAll_nil pat rep
  | cons c rest ih =>
    intro h
    rw [countOcc_cons] at h
    have hpre : pat.isPrefixOf (c :: rest) = false := by
      cases hp : pat.isPrefixOf (c :: rest)
      · rfl
      · rw [hp, if_pos rfl] at h
        omega
    have hrest : countOcc pat rest = 0 := by
      rw [hpre] at h
      simpa using h
    rw [replaceAll_cons_neg rep hpre, ih hrest]

theorem countOcc_append_pat_pos (pat : Str) (hp : pat ≠ []) :
    ∀ (A B : Str), 1 ≤ countOcc pat (A ++ pat ++ B) := by
  intro A
  induction A with
  | nil =>
    intro B
    simp only [List.nil_append]
    obtain ⟨p, pt, hpat⟩ := List.exists_cons_of_ne_nil hp
    have hform : pat ++ B = p :: (pt ++ B) := by rw [hpat]; simp
    have hpre : pat.isPrefixOf (pat ++ B) = true := by
      rw [List.isPrefixOf_iff_prefix]
      exact List.prefix_append pat B
    rw [hform, countOcc_cons, ← hform, hpre]
    simp
  | cons a A' ih =>
    intro B
    simp only [List.cons_append, countOcc_cons]
    have h := ih B
    simp only [List.cons_append] at h ⊢
    omega

theorem countOcc_suffix_le (pat : Str) : ∀ (Y B : Str),
    countOcc pat B ≤ countOcc pat (Y ++ B) := by
  intro Y
  induction Y with
  | nil => intro B; simp
  | cons y Y' ih =>
    intro B
    rw [List.cons_append, countOcc_cons]
    have := ih B
    omega

theorem replaceAll_unique {pat rep : Str} (hp : pat ≠ []) :
    ∀ (A B : Str), countOcc pat (A ++ pat ++ B) = 1 →
    replaceAll pat rep (A ++ pat ++ B) = A ++ rep ++ B := by
  intro A
  induction A with
  | nil =>
    intro B h
    simp only [List.nil_append] at h ⊢
    obtain ⟨p, pt, hpat⟩ := List.exists_cons_of_ne_nil hp
    have hform : pat ++ B = p :: (pt ++ B) := by rw [hpat]; simp
    have hpre : pat.isPrefixOf (pat ++ B) = true := by
      rw [List.isPrefixOf_iff_prefix]
      exact List.prefix_append pat B
    have hpre2 : pat.isPrefixOf (p :: (pt ++ B)) = true := hform ▸ hpre
    rw [hform, replaceAll_cons_pos rep hp hpre2, ← hform, List.drop_left]
    have hcount : countOcc pat (p :: (pt ++ B)) = 1 := hform ▸ h
    rw [countOcc_cons, hpre2] at hcount
    simp only [if_pos] at hcount
    have hB : countOcc pat B = 0 := by
      have hle := countOcc_suffix_le pat pt B
      omega
    rw [replaceAll_of_countOcc_zero hB]
  | cons a A' ih =>
    intro B h
    simp only [List.cons_append] at h ⊢
    have hge := countOcc_append_pat_pos pat hp A' B
    simp only [List.cons_append] at hge
    rw [countOcc_cons] at h
    have hpre : pat.isPrefixOf (a :: (A' ++ pat ++ B)) = false := by
      cases hpp : pat.isPrefixOf (a :: (A' ++ pat ++ B))
      · rfl
      · exfalso
        rw [hpp, if_pos rfl] at h
        omega
    rw [hpre] at h
    simp only [Bool.false_eq_true, if_false, Nat.zero_add] at h
    rw [replaceAll_cons_neg rep hpre, ih B h]

theorem protectLoop_nil (gen : Nat → Str) (k : Nat) :
    protectLoop gen k [] = ([], []) := by
  rw [protectLoop.eq_def]

theorem protectLoop_cons_match {gen : Nat → Str} {k : Nat} {c : Char}
    {rest m after : Str} (h : tryTag (c :: rest) = some (m, after)) :
    protectLoop gen k (c :: rest) =
      (gen k ++ (protectLoop gen (k + 1) after).1,
        (gen k, m) :: (protectLoop gen (k + 1) after).2) := by
  rw [protectLoop.eq_def]
  split
  · rename_i hm
    simp at hm
  · rename_i hm
    injection hm with h1 h2
    subst h1
    subst h2
    split
    · rename_i m1 after1 heq
      rw [h] at heq
      injection heq with heq1
      injection heq1 with ha hb
      subst ha
      subst hb
      rfl
    · rename_i heq
      rw [h] at heq
      cases heq

theorem protectLoop_cons_nomatch {gen : Nat → Str} {k : Nat} {c : Char}
    {rest : Str} (h : tryTag (c :: rest) = none) :
    protectLoop gen k (c :: rest) =
      ((c :: (protectLoop gen k rest).1), (protectLoop gen k rest).2) := by
  rw [protectLoop.eq_def]
  split
  · rename_i hm
    simp at hm
  · rename_i hm
    injection hm with h1 h2
    subst h1
    subst h2
    split
    · rename_i m1 after1 heq
      rw [h] at heq
      cases heq
    · rfl

theorem tokensFresh_cons_match {gen : Nat → Str} {k : Nat} {X : Str} {c : Char}
    {rest m after : Str} (h : tryTag (c :: rest) = some (m, after)) :
    tokensFresh gen k X (c :: rest) =
      (decide (gen k ≠ []) &&
        decide (countOcc (gen k) (X ++ gen k ++ (protectLoop gen (k + 1) after).1) = 1) &&
        tokensFresh gen (k + 1) (X ++ m) after) := by
  rw [tokensFresh.eq_def]
  split
  · rename_i hm
    simp at hm
  · rename_i hm
    injection hm with h1 h2
    subst h1
    subst h2
    split
    · rename_i m1 after1 heq
      rw [h] at heq
      injection heq with heq1
      injection heq1 with ha hb
      subst ha
      subst hb
      rfl
    · rename_i heq
      rw [h] at heq
      cases heq

theorem tokensFresh_cons_nomatch {gen : Nat → Str} {k : Nat} {X : Str} {c : Char}
    {rest : Str} (h : tryTag (c :: rest) = none) :
    tokensFresh gen k X (c :: rest) = tokensFresh gen k (X ++ [c]) rest := by
  rw [tokensFresh.eq_def]
  split
  · rename_i hm
    simp at hm
  · rename_i hm
    injection hm with h1 h2
    subst h1
    subst h2
    split
    · rename_i m1 after1 heq
      rw [h] at heq
      cases heq
    · rfl

theorem restore_tags_nil (t : Str) : restore_tags t [] = t := rfl

theorem restore_tags_cons (t : Str) (kv : Str × Str) (tags : List (Str × Str)) :
    restore_tags t (kv :: tags) = restore_tags (replaceAll kv.1 kv.2 t) tags := rfl

theorem restore_protectLoop (gen : Nat → Str) :
    ∀ (k : Nat) (X s : Str), tokensFresh gen k X s = true →
    restore_tags (X ++ (protectLoop gen k s).1) (protectLoop gen k s).2 = X ++ s := by
  have hind := tokensFresh.induct gen
    (motive := fun k X s => tokensFresh gen k X s = true →
      restore_tags (X ++ (protectLoop gen k s).1) (protectLoop gen k s).2 = X ++ s)
  intro k X s
  apply hind
  · intro k1 X1 _
    rw [protectLoop_nil]
    simp [restore_tags_nil]
  · intro k1 X1 c rest m after hmatch ih hfresh
    rw [tokensFresh_cons_match hmatch, Bool.and_eq_true, Bool.and_eq_true] at hfresh
    obtain ⟨⟨hne, hcount⟩, hrec⟩ := hfresh
    rw [decide_eq_true_iff] at hne hcount
    rw [protectLoop_cons_match hmatch, restore_tags_cons]
    simp only []
    have hassoc : X1 ++ (gen k1 ++ (protectLoop gen (k1 + 1) after).1) =
        X1 ++ gen k1 ++ (protectLoop gen (k1 + 1) after).1 :=
      (List.append_assoc X1 (gen k1) _).symm
    rw [hassoc,
      replaceAll_unique hne X1 (protectLoop gen (k1 + 1) after).1 hcount]
    have hassoc2 : X1 ++ m ++ (protectLoop gen (k1 + 1) after).1 =
        (X1 ++ m) ++ (protectLoop gen (k1 + 1) after).1 := rfl
    rw [hassoc2, ih hrec]
    obtain ⟨hdec, _⟩ := tryTag_decomp hmatch
    rw [List.append_assoc, ← hdec]
  · intro k1 X1 c rest hnone ih hfresh
    rw [tokensFresh_cons_nomatch hnone] at hfresh
    rw [protectLoop_cons_nomatch hnone]
    simp only []
    have hassoc : X1 ++ c :: (protectLoop gen k1 rest).1 =
        (X1 ++ [c]) ++ (protectLoop gen k1 rest).1 := by simp
    rw [hassoc, ih hfresh]
    simp

theorem tokensFresh_nil (gen : Nat → Str) (k : Nat) (X : Str) :
    tokensFresh gen k X [] = true := by
  rw [tokensFresh.eq_def]

theorem protectLoop_no_tags (gen : Nat → Str) :
    ∀ (k : Nat) (s : Str), (protectLoop gen k s).2 = [] →
    (protectLoop gen k s).1 = s := by
  have hind := protectLoop.induct gen
    (motive := fun k s => (protectLoop gen k s).2 = [] → (protectLoop gen k s).1 = s)
  intro k s
  apply hind
  · intro k1 _
    rw [protectLoop_nil]
  · intro k1 c rest m after hmatch ih htags
    rw [protectLoop_cons_match hmatch] at htags
    simp at htags
  · intro k1 c rest hnone ih htags
    rw [protectLoop_cons_nomatch hnone] at htags ⊢
    simp only [] at htags ⊢
    rw [ih htags]

theorem tryAngle_none_of_head {c : Char} {rest : Str} (h1 : c ≠ '<') :
    tryAngle (c :: rest) = none := by
  rw [tryAngle.eq_def]
  split
  · rename_i rest1 hm
    injection hm with ha hb
    exact absurd ha h1
  · rfl

theorem tryBrace_none_of_head {c : Char} {rest : Str} (h2 : c ≠ '{') :
    tryBrace (c :: rest) = none := by
  rw [tryBrace.eq_def]
  split
  · rename_i rest1 hm
    injection hm with ha hb
    exact absurd ha h2
  · rfl

theorem tryTag_none_of_head {c : Char} {rest : Str} (h1 : c ≠ '<') (h2 : c ≠ '{') :
    tryTag (c :: rest) = none := by
  unfold tryTag
  rw [tryAngle_none_of_head h1]
  exact tryBrace_none_of_head h2

/-- Text containing neither `<` nor `{` has no `TAG_RE` match: the
protector returns it unchanged with an empty map. -/
theorem protectLoop_plain (gen : Nat → Str) :
    ∀ (s : Str) (k : Nat), (∀ c ∈ s, c ≠ '<' ∧ c ≠ '{') →
    protectLoop gen k s = (s, []) := by
  intro s
  induction s with
  | nil => intro k _; exact protectLoop_nil gen k
  | cons c rest ih =>
    intro k h
    obtain ⟨h1, h2⟩ := h c (List.mem_cons_self c rest)
    rw [protectLoop_cons_nomatch (tryTag_none_of_head h1 h2),
      ih k (fun x hx => h x (List.mem_cons_of_mem c hx))]

theorem tokensFresh_plain (gen : Nat → Str) :
    ∀ (s : Str) (k : Nat) (X : Str), (∀ c ∈ s, c ≠ '<' ∧ c ≠ '{') →
    tokensFresh gen k X s = true := by
  intro s
  induction s with
  | nil => intro k X _; exact tokensFresh_nil gen k X
  | cons c rest ih =>
    intro k X h
    obtain ⟨h1, h2⟩ := h c (List.mem_cons_self c rest)
    rw [tokensFresh_cons_nomatch (tryTag_none_of_head h1 h2)]
    exact ih k (X ++ [c]) (fun x hx => h x (List.mem_cons_of_mem c hx))

/-- C8: the markup round trip. Under the uuid freshness assumption on the
generated placeholder tokens (`tokensFresh`), restoring the protected
text through the recorded map reproduces the input exactly; a text with
no `TAG_RE` match is returned unchanged with an empty map; and empty
input yields empty output and an empty map. -/
theorem protect_restore_tags (gen : Nat → Str) (x : Str) :
    (tokensFresh gen 0 [] x = true →
      restore_tags (protect_tags gen x).1 (protect_tags gen x).2 = x) ∧
    ((protect_tags gen x).2 = [] → protect_tags gen x = (x, [])) ∧
    protect_tags gen [] = ([], []) := by
  refine ⟨?_, ?_, ?_⟩
  · intro h
    have hr := restore_protectLoop gen 0 [] x h
    simpa using hr
  · intro h
    unfold protect_tags at h ⊢
    have h1 := protectLoop_no_tags gen 0 x h
    have hsplit : protectLoop gen 0 x = ((protectLoop gen 0 x).1, (protectLoop gen 0 x).2) := rfl
    rw [hsplit, h1, h]
  · unfold protect_tags
    exact protectLoop_nil gen 0

/-- A concrete placeholder generator for the C8 witness. -/
def exampleGen : Nat → Str := fun k =>
  '_' :: '_' :: 'T' :: 'A' :: 'G' :: '_' :: digitCh k :: '_' :: '_' :: []

/-- Witness for C8's theorem: restoring a protected text containing one
HTML-like tag reproduces it exactly. -/
theorem protect_restore_tags_witness :
    restore_tags
      (protect_tags exampleGen ('a' :: '<' :: 'i' :: '>' :: 'b' :: [])).1
      (protect_tags exampleGen ('a' :: '<' :: 'i' :: '>' :: 'b' :: [])).2 =
      'a' :: '<' :: 'i' :: '>' :: 'b' :: [] := by
  apply (protect_restore_tags exampleGen ('a' :: '<' :: 'i' :: '>' :: 'b' :: [])).1
  have hP : protectLoop exampleGen 1 ('b' :: []) = ('b' :: [], []) := by
    rw [protectLoop_cons_nomatch (by decide), protectLoop_nil]
  have hT : tryTag ('<' :: 'i' :: '>' :: 'b' :: []) =
      some ('<' :: 'i' :: '>' :: [], 'b' :: []) := by decide
  rw [tokensFresh_cons_nomatch (by decide), tokensFresh_cons_match hT, hP]
  rw [tokensFresh_cons_nomatch (by decide), tokensFresh_nil]
  decide

/-! ## The translator orchestrator (`Translator.translate`, `review`,
`translate_batch`) -/

/-- The mutable state of one `Translator` instance, threaded explicitly:
the translation cache (`self._cache`, insertion-ordered, looked up by
first match), the HTTP attempt clock (position in the network oracle),
the number of `post_with_retry` invocations, the cache-hit counter
(`self._cache_hits`), and the number of uuid placeholders generated so
far. -/
structure TState where
  cache : List (Str × Str)
  clk : Nat
  posts : Nat
  cacheHits : Nat
  fresh : Nat
  deriving DecidableEq

/-- `Translator.translate(text, prev_text, next_text)` from
`translate_srt.py`. The network oracle `net` and the placeholder
generator `gen` stand for the HTTP backend and `uuid.uuid4`; the context
arguments only influence the prompt, which the oracle abstracts away. -/
def translate (net : Net) (gen : Nat → Str) (st : TState)
    (text prev_text next_text : Str) : Str × TState :=
  -- `if not text.strip(): return text`
  if pyStrip text = [] then (text, st)
  else
    -- `cache_key = text.strip()`
    let cache_key := pyStrip text
    match st.cache.lookup cache_key with
    | some v => (v, { st with cacheHits := st.cacheHits + 1 })
    | none =>
      -- `protected_text, tags = protect_tags(text)`
      let pt := protectLoop gen st.fresh text
      let tags := pt.2
      let st1 := { st with fresh := st.fresh + tags.length }
      -- `resp = post_with_retry(..., attempts=3, backoff=1.0)`
      let r1 := post_with_retry net 1 3 st1.clk
      let st2 := { st1 with clk := r1.t1, posts := st1.posts + 1 }
      match r1.out with
      | none => (text, st2)
      | some resp =>
        if resp.status ≠ 200 then (text, st2)
        else
          -- `translated = data.get("response", "").strip()`, with the raw
          -- body as fallback when JSON parsing fails
          let translated :=
            match resp.responseField with
            | some s => pyStrip s
            | none => pyStrip resp.body
          if validate_translation text translated then
            let result := restore_tags translated tags
            (result, { st2 with cache := (cache_key, result) :: st2.cache })
          else
            -- retry once: `post_with_retry(..., attempts=1, backoff=0)`
            let r2 := post_with_retry net 0 1 st2.clk
            let st3 := { st2 with clk := r2.t1, posts := st2.posts + 1 }
            let translated2 :=
              match r2.out with
              | some resp2 =>
                if resp2.status = 200 then
                  match resp2.responseField with
                  | some s => pyStrip s
                  | none => translated  -- JSON failure in the retry: `pass`
                else translated
              | none => translated
            if validate_translation text translated2 then
              let result := restore_tags translated2 tags
              (result, { st3 with cache := (cache_key, result) :: st3.cache })
            else (text, st3)

/-- `Translator.review(original, translated, ...)` from
`translate_srt.py`. -/
def review (net : Net) (st : TState)
    (original translated prev_original prev_translated next_original : Str) :
    Str × TState :=
  -- `if not translated.strip() or not original.strip(): return translated`
  if pyStrip translated = [] ∨ pyStrip original = [] then (translated, st)
  else
    -- `post_with_retry(..., attempts=2, backoff=1.0)`
    let r := post_with_retry net 1 2 st.clk
    let st1 := { st with clk := r.t1, posts := st.posts + 1 }
    match r.out with
    | none => (translated, st1)
    | some resp =>
      if resp.status ≠ 200 then (translated, st1)
      else
        match resp.responseField with
        | none => (translated, st1)  -- JSON failure: return translated
        | some s =>
          let reviewed := pyStrip s
          if reviewed = [] then (translated, st1)
          else if reviewed.length > original.length * 5 ∧ original.length > 10 then
            (translated, st1)
          else (reviewed, st1)

/-- The per-segment `protect_tags` loop at the top of a chunk's
processing in `translate_batch`, threading the uuid supply. -/
def protectSegs (gen : Nat → Str) (fresh : Nat) :
    List Str → List (Str × List (Str × Str)) × Nat
  | [] => ([], fresh)
  | seg :: rest =>
    let r := protectLoop gen fresh seg
    let rr := protectSegs gen (fresh + r.2.length) rest
    ((r.1, r.2) :: rr.1, rr.2)

/-- The literal separator token `|||SEP|||`. -/
def sepToken : Str :=
  '|' :: '|' :: '|' :: 'S' :: 'E' :: 'P' :: '|' :: '|' :: '|' :: []

/-- Python `model_response.split("|||SEP|||")`. -/
def splitSep : Str → List Str
  | [] => [[]]
  | c :: rest =>
    if sepToken.isPrefixOf (c :: rest) then
      [] :: splitSep ((c :: rest).drop sepToken.length)
    else
      match splitSep rest with
      | [] => [[c]]
      | l :: ls => (c :: l) :: ls
  termination_by s => s.length
  decreasing_by
  · simp only [List.length_drop, List.length_cons]
    have : sepToken.length = 9 := rfl
    omega
  · simp

/-- `parts = [p.strip() for p in model_response.split("|||SEP|||")]`
followed by `parts = [p for p in parts if p]`. -/
def sepParts (s : Str) : List Str :=
  ((splitSep s).map pyStrip).filter (fun p => p ≠ [])

/-- The per-segment fallback loop of `translate_batch`: translate each
segment of the chunk individually, passing the neighbours from the full
original sequence (located through the global index) as sliding-window
context. -/
def fallbackLoop (net : Net) (gen : Nat → Str) (texts : List Str) :
    TState → Nat → List Str → List Str × TState
  | st, _, [] => ([], st)
  | st, gidx, seg :: rest =>
    let prev_text := if gidx > 0 then texts.getD (gidx - 1) [] else []
    let next_text := if gidx < texts.length - 1 then texts.getD (gidx + 1) [] else []
    let r := translate net gen st seg prev_text next_text
    let rr := fallbackLoop net gen texts r.2 (gidx + 1) rest
    (r.1 :: rr.1, rr.2)

/-- The number of chunk segments whose batched translation fails
`validate_translation`. -/
def badCount (chunk parts : List Str) : Nat :=
  ((chunk.zip parts).filter
    (fun p => ¬ validate_translation p.1 p.2)).length

/-- Processing of one chunk inside `translate_batch`. -/
def processChunk (net : Net) (gen : Nat → Str) (texts : List Str)
    (st : TState) (chunk_start : Nat) (chunk : List Str) : List Str × TState :=
  let P := protectSegs gen st.fresh chunk
  let tags_list := P.1.map (fun q => q.2)
  let st0 := { st with fresh := P.2 }
  -- `post_with_retry(..., timeout=180, attempts=3, backoff=1.0)`
  let r := post_with_retry net 1 3 st0.clk
  let st1 := { st0 with clk := r.t1, posts := st0.posts + 1 }
  match r.out with
  | none => (chunk, st1)  -- `results.extend(chunk); continue`
  | some resp =>
    if resp.status ≠ 200 then (chunk, st1)
    else
      -- delimiter parse; empty on JSON failure
      let parsed :=
        match resp.responseField with
        | some s => if (sepParts s).length = chunk.length then sepParts s else []
        | none => []
      -- discard the whole parse when more than half the segments fail
      -- validation (`bad_count > len(chunk) * 0.5`)
      let translated_list :=
        if parsed ≠ [] ∧ parsed.length = chunk.length ∧
            2 * badCount chunk parsed > chunk.length then []
        else parsed
      if translated_list ≠ [] ∧ translated_list.length = chunk.length then
        ((translated_list.zip tags_list).map (fun q => restore_tags q.1 q.2), st1)
      else
        let fb := fallbackLoop net gen texts st1 chunk_start chunk
        ((fb.1.zip tags_list).map (fun q => restore_tags q.1 q.2), fb.2)

/-- The chunk loop of `translate_batch`. -/
def batchLoop (net : Net) (gen : Nat → Str) (texts : List Str) :
    TState → List (Nat × List Str) → List Str × TState
  | st, [] => ([], st)
  | st, (chunk_start, chunk) :: rest =>
    let r := processChunk net gen texts st chunk_start chunk
    let rr := batchLoop net gen texts r.2 rest
    (r.1 ++ rr.1, rr.2)

/-- The optional review pass at the end of `translate_batch`, iterating
over `zip(texts, results)` with the neighbours drawn from `texts` and the
first-pass `results`. -/
def reviewLoop (net : Net) (texts results : List Str) :
    TState → Nat → List (Str × Str) → List Str × TState
  | st, _, [] => ([], st)
  | st, i, (orig, tr1) :: rest =>
    let prev_orig := if i > 0 then texts.getD (i - 1) [] else []
    let prev_trans := if i > 0 then results.getD (i - 1) [] else []
    let next_orig := if i < texts.length - 1 then texts.getD (i + 1) [] else []
    let r := review net st orig tr1 prev_orig prev_trans next_orig
    let rr := reviewLoop net texts results r.2 (i + 1) rest
    (r.1 :: rr.1, rr.2)

/-- `Translator.translate_batch(texts, max_chars)` from
`translate_srt.py`. -/
def translate_batch (net : Net) (gen : Nat → Str) (two_pass : Bool)
    (st : TState) (texts : List Str) (max_chars : Nat) : List Str × TState :=
  -- `if not texts: return []`
  if texts = [] then ([], st)
  else
    let chunks := make_chunks texts max_chars
    let r := batchLoop net gen texts st chunks
    -- `if self.two_pass and results:`
    if two_pass ∧ r.1 ≠ [] then
      reviewLoop net texts r.1 r.2 0 (texts.zip r.1)
    else r

theorem translate_blank {net : Net} {gen : Nat → Str} {st : TState}
    {text p n : Str} (h : pyStrip text = []) :
    translate net gen st text p n = (text, st) := by
  unfold translate
  rw [if_pos h]

theorem translate_hit {net : Net} {gen : Nat → Str} {st : TState}
    {text p n v : Str} (h : pyStrip text ≠ [])
    (hl : st.cache.lookup (pyStrip text) = some v) :
    translate net gen st text p n =
      (v, { st with cacheHits := st.cacheHits + 1 }) := by
  unfold translate
  rw [if_neg h]
  simp only [hl]

theorem post_first_attempt {net : Net} {backoff : ℚ} {clk : Nat} {r : Resp}
    (h : net clk = some r) :
    ∀ attempts, 0 < attempts →
    post_with_retry net backoff attempts clk = ⟨some r, clk + 1, []⟩ := by
  intro attempts ha
  cases attempts with
  | zero => omega
  | succ k =>
    unfold post_with_retry postLoop
    rw [h]

theorem translate_transport_fail {net : Net} {gen : Nat → Str} {st : TState}
    {text p n : Str} (h : pyStrip text ≠ [])
    (hm : st.cache.lookup (pyStrip text) = none)
    (hfail : ∀ j, j < 3 → net (st.clk + j) = none) :
    translate net gen st text p n =
      (text, { st with
        fresh := st.fresh + (protectLoop gen st.fresh text).2.length,
        clk := st.clk + 3,
        posts := st.posts + 1 }) := by
  unfold translate
  rw [if_neg h]
  simp only [hm]
  have hp := (post_with_retry_spec net 1 3 st.clk).2.1 hfail
  rw [hp]

theorem translate_store {net : Net} {gen : Nat → Str} {st : TState}
    {text p n s : Str} {resp : Resp} (h : pyStrip text ≠ [])
    (hm : st.cache.lookup (pyStrip text) = none)
    (hnet : net st.clk = some resp) (hs : resp.status = 200)
    (hf : resp.responseField = some s)
    (hv : validate_translation text (pyStrip s) = true) :
    translate net gen st text p n =
      (restore_tags (pyStrip s) (protectLoop gen st.fresh text).2,
        { st with
          fresh := st.fresh + (protectLoop gen st.fresh text).2.length,
          clk := st.clk + 1, posts := st.posts + 1,
          cache := (pyStrip text,
            restore_tags (pyStrip s) (protectLoop gen st.fresh text).2) ::
            st.cache }) := by
  unfold translate
  rw [if_neg h]
  simp only [hm]
  rw [post_first_attempt hnet 3 (by omega)]
  simp only [hs, hf]
  simp only [if_neg (by omega : ¬(200 ≠ 200))]
  rw [if_pos hv]

/-- C6 amended: the cache guarantee holds for calls whose first
translation was accepted and stored. If the first call misses the cache,
its first backend attempt returns HTTP 200 with a payload that passes
validation (so the result is cached), then a second call with the same
trimmed text — whatever its context arguments — returns the byte-identical
result and changes nothing in the state except the cache-hit counter: in
particular no network exchange happens. A first call that degrades caches
nothing, and the second call then does hit the backend again (see the
counterexample). -/
theorem translate_cache_two_calls (net : Net) (gen : Nat → Str) (st : TState)
    (t1 t2 p1 n1 p2 n2 s : Str) (resp : Resp)
    (hb : pyStrip t1 ≠ []) (heq : pyStrip t2 = pyStrip t1)
    (hm : st.cache.lookup (pyStrip t1) = none)
    (hnet : net st.clk = some resp) (hs : resp.status = 200)
    (hf : resp.responseField = some s)
    (hv : validate_translation t1 (pyStrip s) = true) :
    (translate net gen (translate net gen st t1 p1 n1).2 t2 p2 n2).1 =
      (translate net gen st t1 p1 n1).1 ∧
    (translate net gen (translate net gen st t1 p1 n1).2 t2 p2 n2).2 =
      { (translate net gen st t1 p1 n1).2 with
        cacheHits := (translate net gen st t1 p1 n1).2.cacheHits + 1 } := by
  rw [translate_store hb hm hnet hs hf hv]
  have hb2 : pyStrip t2 ≠ [] := by rw [heq]; exact hb
  have hl2 : ({ st with
      fresh := st.fresh + (protectLoop gen st.fresh t1).2.length,
      clk := st.clk + 1, posts := st.posts + 1,
      cache := (pyStrip t1,
        restore_tags (pyStrip s) (protectLoop gen st.fresh t1).2) ::
        st.cache } : TState).cache.lookup (pyStrip t2) =
      some (restore_tags (pyStrip s) (protectLoop gen st.fresh t1).2) := by
    simp only [heq]
    simp [List.lookup]
  rw [translate_hit hb2 hl2]
  exact ⟨rfl, rfl⟩

/-- Concrete strings and networks for the cache scenarios. -/
def helloStr : Str := 'H' :: 'e' :: 'l' :: 'l' :: 'o' :: []

def bonjourStr : Str := 'B' :: 'o' :: 'n' :: 'j' :: 'o' :: 'u' :: 'r' :: []

def stEmpty : TState := ⟨[], 0, 0, 0, 0⟩

/-- A backend that always answers 200 with a valid translation. -/
def netOk : Net := fun _ => some ⟨200, some bonjourStr, []⟩

/-- A backend whose first three attempts raise transport failures and
which then answers 200 with a valid translation. -/
def netFailThenOk : Net := fun t =>
  if t < 3 then none else some ⟨200, some bonjourStr, []⟩

/-- C6 counterexample: two `translate` calls with the same trimmed text
on one instance where the first call degrades (transport failure on all
three attempts, so nothing is cached). The first call returns the
original text after consuming attempts 0-2; the second call consumes a
further backend attempt (clock 3 → 4) and returns different bytes —
refuting the claim as universally stated. -/
theorem translate_cache_counterexample :
    translate netFailThenOk exampleGen stEmpty helloStr [] [] =
      (helloStr, ⟨[], 3, 1, 0, 0⟩) ∧
    translate netFailThenOk exampleGen ⟨[], 3, 1, 0, 0⟩ helloStr [] [] =
      (bonjourStr, ⟨[(helloStr, bonjourStr)], 4, 2, 0, 0⟩) ∧
    helloStr ≠ bonjourStr := by
  have hplain : ∀ c ∈ helloStr, c ≠ '<' ∧ c ≠ '{' := by decide
  refine ⟨?_, ?_, by decide⟩
  · have h1 := @translate_transport_fail netFailThenOk exampleGen stEmpty
      helloStr [] [] (by decide) rfl
      (by intro j hj; interval_cases j <;> rfl)
    rw [h1, protectLoop_plain exampleGen helloStr stEmpty.fresh hplain]
    rfl
  · have h2 := @translate_store netFailThenOk exampleGen ⟨[], 3, 1, 0, 0⟩
      helloStr [] [] bonjourStr ⟨200, some bonjourStr, []⟩
      (by decide) rfl rfl rfl rfl (by decide)
    rw [h2, protectLoop_plain exampleGen helloStr
      (⟨[], 3, 1, 0, 0⟩ : TState).fresh hplain]
    rfl

/-- Witness for the amended C6 theorem: with a healthy backend the second
call with the same trimmed text returns the byte-identical result. -/
theorem translate_cache_two_calls_witness :
    (translate netOk exampleGen
        (translate netOk exampleGen stEmpty helloStr [] []).2 helloStr [] []).1 =
      (translate netOk exampleGen stEmpty helloStr [] []).1 :=
  (translate_cache_two_calls netOk exampleGen stEmpty helloStr helloStr
    [] [] [] [] bonjourStr ⟨200, some bonjourStr, []⟩
    (by decide) rfl rfl rfl rfl rfl (by decide)).1

theorem postLoop_t1_ge (net : Net) (b : ℚ) :
    ∀ (k a clk : Nat), clk ≤ (postLoop net b a k clk).t1 := by
  intro k
  induction k with
  | zero => intro a clk; simp [postLoop]
  | succ k ih =>
    intro a clk
    rw [postLoop]
    cases net clk with
    | some r => simp
    | none =>
      simp only []
      have := ih (a + 1) (clk + 1)
      omega

theorem postLoop_t1_pos (net : Net) (b : ℚ) :
    ∀ (k a clk : Nat), 0 < k → clk < (postLoop net b a k clk).t1 := by
  intro k a clk hk
  cases k with
  | zero => omega
  | succ k =>
    rw [postLoop]
    cases net clk with
    | some r => simp
    | none =>
      simp only []
      have := postLoop_t1_ge net b k (a + 1) (clk + 1)
      omega

theorem post_with_retry_t1_pos (net : Net) (b : ℚ) (a clk : Nat) (ha : 0 < a) :
    clk < (post_with_retry net b a clk).t1 :=
  postLoop_t1_pos net b a 1 clk ha

theorem post_with_retry_t1_ge (net : Net) (b : ℚ) (a clk : Nat) :
    clk ≤ (post_with_retry net b a clk).t1 :=
  postLoop_t1_ge net b a 1 clk

/-- C10: cache atomicity of `Translator.translate`. Blank input leaves
the state untouched; in general the cache is either left completely
unchanged or extended by exactly one entry, keyed by the trimmed input
and holding a tag-restored translation that passed validation (so no
original-text fallback is ever cached); transport failures and non-200
statuses degrade to the original text with the cache unchanged; and a
cache miss on non-blank input always performs a new backend attempt. -/
theorem translate_cache_atomicity (net : Net) (gen : Nat → Str) (st : TState)
    (text p n : Str) :
    (pyStrip text = [] → translate net gen st text p n = (text, st)) ∧
    ((translate net gen st text p n).2.cache = st.cache ∨
      ∃ tr, validate_translation text tr = true ∧
        (translate net gen st text p n).1 =
          restore_tags tr (protectLoop gen st.fresh text).2 ∧
        (translate net gen st text p n).2.cache =
          (pyStrip text, restore_tags tr (protectLoop gen st.fresh text).2) ::
            st.cache) ∧
    (pyStrip text ≠ [] → st.cache.lookup (pyStrip text) = none →
      (post_with_retry net 1 3 st.clk).out = none →
      (translate net gen st text p n).1 = text ∧
      (translate net gen st text p n).2.cache = st.cache) ∧
    (∀ resp, pyStrip text ≠ [] → st.cache.lookup (pyStrip text) = none →
      (post_with_retry net 1 3 st.clk).out = some resp → resp.status ≠ 200 →
      (translate net gen st text p n).1 = text ∧
      (translate net gen st text p n).2.cache = st.cache) ∧
    (pyStrip text ≠ [] → st.cache.lookup (pyStrip text) = none →
      st.clk < (translate net gen st text p n).2.clk) := by
  refine ⟨fun hb => translate_blank hb, ?_, ?_, ?_, ?_⟩
  · -- dichotomy
    by_cases hb : pyStrip text = []
    · rw [translate_blank hb]
      exact Or.inl rfl
    · unfold translate
      rw [if_neg hb]
      cases hl : st.cache.lookup (pyStrip text) with
      | some v => simp only [hl]; left; trivial
      | none =>
        simp only [hl]
        cases hro : (post_with_retry net 1 3 st.clk).out with
        | none => simp only [hro]; left; trivial
        | some resp =>
          simp only [hro]
          by_cases hst : resp.status ≠ 200
          · rw [if_pos hst]; left; trivial
          · rw [if_neg hst]
            by_cases hv1 : validate_translation text
                (match resp.responseField with
                  | some s => pyStrip s
                  | none => pyStrip resp.body) = true
            · rw [if_pos hv1]
              exact Or.inr ⟨_, hv1, rfl, rfl⟩
            · rw [if_neg hv1]
              by_cases hv2 : validate_translation text
                  (match (post_with_retry net 0 1
                      (post_with_retry net 1 3 st.clk).t1).out with
                    | some resp2 =>
                      if resp2.status = 200 then
                        match resp2.responseField with
                        | some s => pyStrip s
                        | none =>
                          match resp.responseField with
                          | some s => pyStrip s
                          | none => pyStrip resp.body
                      else
                        match resp.responseField with
                        | some s => pyStrip s
                        | none => pyStrip resp.body
                    | none =>
                      match resp.responseField with
                      | some s => pyStrip s
                      | none => pyStrip resp.body) = true
              · rw [if_pos hv2]
                exact Or.inr ⟨_, hv2, rfl, rfl⟩
              · rw [if_neg hv2]
                left
                trivial
  · -- transport failure
    intro hb hm hfail
    unfold translate
    rw [if_neg hb]
    simp only [hm, hfail]
    constructor <;> trivial
  · -- non-200
    intro resp hb hm hro hst
    unfold translate
    rw [if_neg hb]
    simp only [hm, hro]
    rw [if_pos hst]
    constructor <;> trivial
  · -- miss always hits the backend
    intro hb hm
    unfold translate
    rw [if_neg hb]
    simp only [hm]
    have h1 : st.clk < (post_with_retry net 1 3 st.clk).t1 :=
      post_with_retry_t1_pos net 1 3 st.clk (by omega)
    have h2 : (post_with_retry net 1 3 st.clk).t1 ≤
        (post_with_retry net 0 1 (post_with_retry net 1 3 st.clk).t1).t1 :=
      post_with_retry_t1_ge net 0 1 _
    cases hro : (post_with_retry net 1 3 st.clk).out with
    | none => exact h1
    | some resp =>
      simp only []
      split
      · exact h1
      · split
        · exact h1
        · split
          · exact lt_of_lt_of_le h1 h2
          · exact lt_of_lt_of_le h1 h2

/-- Witness for C10's theorem: a transport-failure call degrades to the
original text and leaves the cache unchanged. -/
theorem translate_cache_atomicity_witness :
    (translate netFailThenOk exampleGen stEmpty helloStr [] []).1 = helloStr ∧
    (translate netFailThenOk exampleGen stEmpty helloStr [] []).2.cache =
      stEmpty.cache :=
  (translate_cache_atomicity netFailThenOk exampleGen stEmpty
    helloStr [] []).2.2.1 (by decide) rfl (by decide)

theorem protectSegs_length (gen : Nat → Str) :
    ∀ (chunk : List Str) (fresh : Nat),
    (protectSegs gen fresh chunk).1.length = chunk.length := by
  intro chunk
  induction chunk with
  | nil => intro fresh; rfl
  | cons seg rest ih =>
    intro fresh
    simp only [protectSegs, List.length_cons]
    rw [ih]

theorem fallbackLoop_length (net : Net) (gen : Nat → Str) (texts : List Str) :
    ∀ (segs : List Str) (st : TState) (gidx : Nat),
    (fallbackLoop net gen texts st gidx segs).1.length = segs.length := by
  intro segs
  induction segs with
  | nil => intro st gidx; rfl
  | cons seg rest ih =>
    intro st gidx
    simp only [fallbackLoop, List.length_cons]
    rw [ih]

theorem processChunk_length (net : Net) (gen : Nat → Str) (texts : List Str)
    (st : TState) (cs : Nat) (chunk : List Str) :
    (processChunk net gen texts st cs chunk).1.length = chunk.length := by
  have htags : ((protectSegs gen st.fresh chunk).1.map
      (fun q => q.2)).length = chunk.length := by
    rw [List.length_map, protectSegs_length]
  unfold processChunk
  dsimp only []
  split
  · rfl
  · split
    · rfl
    · split
      · rw [if_neg (by simp)]
        simp only [List.length_map, List.length_zip, htags, fallbackLoop_length]
        exact Nat.min_self _
      · split
        · rename_i hacc
          simp only [List.length_map, List.length_zip, htags, hacc.2]
          exact Nat.min_self _
        · simp only [List.length_map, List.length_zip, htags,
            fallbackLoop_length]
          exact Nat.min_self _

theorem batchLoop_length (net : Net) (gen : Nat → Str) (texts : List Str) :
    ∀ (chunks : List (Nat × List Str)) (st : TState),
    (batchLoop net gen texts st chunks).1.length =
      (chunks.map (fun p => p.2.length)).sum := by
  intro chunks
  induction chunks with
  | nil => intro st; rfl
  | cons c rest ih =>
    intro st
    obtain ⟨cs, chunk⟩ := c
    simp only [batchLoop, List.map_cons, List.sum_cons, List.length_append]
    rw [ih, processChunk_length]

theorem reviewLoop_length (net : Net) (texts results : List Str) :
    ∀ (zs : List (Str × Str)) (st : TState) (i : Nat),
    (reviewLoop net texts results st i zs).1.length = zs.length := by
  intro zs
  induction zs with
  | nil => intro st i; rfl
  | cons z rest ih =>
    intro st i
    obtain ⟨orig, tr1⟩ := z
    simp only [reviewLoop, List.length_cons]
    rw [ih]

/-- C2: `translate_batch` always produces exactly one output per input
text, in order; the empty input yields the empty output immediately; and
a chunk whose backend exchange ends in transport failure or a non-200
status contributes its original texts unchanged while processing
continues (degrade-and-continue — no exception path exists in the
model, every branch is total). -/
theorem translate_batch_total (net : Net) (gen : Nat → Str) (tp : Bool)
    (st : TState) (texts : List Str) (maxc : Nat) :
    (translate_batch net gen tp st texts maxc).1.length = texts.length ∧
    (texts = [] → translate_batch net gen tp st texts maxc = ([], st)) ∧
    (∀ (st1 : TState) (cs : Nat) (chunk : List Str),
      ((post_with_retry net 1 3 st1.clk).out = none ∨
        (∃ resp, (post_with_retry net 1 3 st1.clk).out = some resp ∧
          resp.status ≠ 200)) →
      (processChunk net gen texts st1 cs chunk).1 = chunk) := by
  refine ⟨?_, ?_, ?_⟩
  · unfold translate_batch
    by_cases he : texts = []
    · rw [if_pos he, he]
    · rw [if_neg he]
      have hbatch : (batchLoop net gen texts st (make_chunks texts maxc)).1.length =
          texts.length := by
        rw [batchLoop_length]
        have hflat := (make_chunks_partition texts maxc).1
        have hlen : (((make_chunks texts maxc).map Prod.snd).flatten).length =
            texts.length := by rw [hflat]
        rw [List.length_flatten, List.map_map] at hlen
        rw [← hlen]
        rfl
      dsimp only []
      split
      · rw [reviewLoop_length, List.length_zip, hbatch]
        exact Nat.min_self _
      · exact hbatch
  · intro he
    unfold translate_batch
    rw [if_pos he]
  · intro st1 cs chunk hfail
    unfold processChunk
    dsimp only []
    rcases hfail with hnone | ⟨resp, hsome, hstatus⟩
    · split
      · rfl
      · rename_i resp1 hro
        rw [hro] at hnone
        cases hnone
    · split
      · rfl
      · rename_i resp1 hro
        rw [hro] at hsome
        injection hsome with hr
        subst hr
        rw [if_pos hstatus]

/-- Witness for C2's theorem: a transport-failure chunk contributes its
original texts unchanged. -/
theorem translate_batch_total_witness :
    (processChunk (fun _ => none) exampleGen [helloStr] stEmpty 0 [helloStr]).1 =
      [helloStr] :=
  (translate_batch_total (fun _ => none) exampleGen false stEmpty
    [helloStr] 100).2.2 stEmpty 0 [helloStr] (Or.inl (by decide))

/-- C1: for a chunk whose backend exchange returns HTTP 200, the batched
reply is accepted exactly when splitting it on `|||SEP|||` (discarding
empty fragments) yields as many fragments as the chunk has segments and
at most half of the (original, fragment) pairs fail validation; in every
other 200-case — fragment-count mismatch, JSON parse failure, or a
majority of validation failures — every segment is translated
individually through the single-segment path with sliding-window
neighbours located in the full input sequence via the chunk's
`start_index` (`fallbackLoop`); either way the chunk yields exactly one
output per segment. -/
theorem processChunk_http200 (net : Net) (gen : Nat → Str) (texts : List Str)
    (st : TState) (cs : Nat) (chunk : List Str) (resp : Resp) (s : Str)
    (hro : (post_with_retry net 1 3 st.clk).out = some resp)
    (hst : resp.status = 200) :
    (resp.responseField = some s →
      (((sepParts s).length = chunk.length ∧
          2 * badCount chunk (sepParts s) ≤ chunk.length →
        processChunk net gen texts st cs chunk =
          (((sepParts s).zip
              ((protectSegs gen st.fresh chunk).1.map (fun q => q.2))).map
              (fun q => restore_tags q.1 q.2),
            { st with
              fresh := (protectSegs gen st.fresh chunk).2,
              clk := (post_with_retry net 1 3 st.clk).t1,
              posts := st.posts + 1 })) ∧
       (¬ ((sepParts s).length = chunk.length ∧
          2 * badCount chunk (sepParts s) ≤ chunk.length) →
        processChunk net gen texts st cs chunk =
          (((fallbackLoop net gen texts
                { st with
                  fresh := (protectSegs gen st.fresh chunk).2,
                  clk := (post_with_retry net 1 3 st.clk).t1,
                  posts := st.posts + 1 } cs chunk).1.zip
              ((protectSegs gen st.fresh chunk).1.map (fun q => q.2))).map
              (fun q => restore_tags q.1 q.2),
            (fallbackLoop net gen texts
                { st with
                  fresh := (protectSegs gen st.fresh chunk).2,
                  clk := (post_with_retry net 1 3 st.clk).t1,
                  posts := st.posts + 1 } cs chunk).2)))) ∧
    (resp.responseField = none →
      processChunk net gen texts st cs chunk =
        (((fallbackLoop net gen texts
              { st with
                fresh := (protectSegs gen st.fresh chunk).2,
                clk := (post_with_retry net 1 3 st.clk).t1,
                posts := st.posts + 1 } cs chunk).1.zip
            ((protectSegs gen st.fresh chunk).1.map (fun q => q.2))).map
            (fun q => restore_tags q.1 q.2),
          (fallbackLoop net gen texts
              { st with
                fresh := (protectSegs gen st.fresh chunk).2,
                clk := (post_with_retry net 1 3 st.clk).t1,
                posts := st.posts + 1 } cs chunk).2)) ∧
    (processChunk net gen texts st cs chunk).1.length = chunk.length := by
  refine ⟨?_, ?_, processChunk_length net gen texts st cs chunk⟩
  · intro hf
    constructor
    · intro ⟨hcount, hbad⟩
      unfold processChunk
      dsimp only []
      rw [hro]
      dsimp only []
      rw [if_neg (by simp [hst]), hf]
      dsimp only []
      rw [if_pos hcount]
      have hdiscard : ¬ (sepParts s ≠ [] ∧ (sepParts s).length = chunk.length ∧
          2 * badCount chunk (sepParts s) > chunk.length) :=
        fun hx => absurd hx.2.2 (by omega)
      rw [if_neg hdiscard]
      by_cases hnil : sepParts s = []
      · have hfin : ¬ (sepParts s ≠ [] ∧ (sepParts s).length = chunk.length) :=
          fun hx => hx.1 hnil
        rw [if_neg hfin]
        have hchunk : chunk = [] := by
          rw [hnil] at hcount
          exact List.length_eq_zero.mp hcount.symm
        subst hchunk
        rw [hnil]
        rfl
      · have hfin : sepParts s ≠ [] ∧ (sepParts s).length = chunk.length :=
          ⟨hnil, hcount⟩
        rw [if_pos hfin]
    · intro hnacc
      unfold processChunk
      dsimp only []
      rw [hro]
      dsimp only []
      rw [if_neg (by simp [hst]), hf]
      dsimp only []
      by_cases hcount : (sepParts s).length = chunk.length
      · have hbad : ¬ (2 * badCount chunk (sepParts s) ≤ chunk.length) :=
          fun hb => hnacc ⟨hcount, hb⟩
        rw [if_pos hcount]
        have hnil : sepParts s ≠ [] := by
          intro hx
          rw [hx] at hcount
          have hlen0 : chunk.length = 0 := hcount.symm
          have hb0 : badCount chunk (sepParts s) = 0 := by
            rw [hx]
            unfold badCount
            simp
          omega
        have hdiscard : sepParts s ≠ [] ∧ (sepParts s).length = chunk.length ∧
            2 * badCount chunk (sepParts s) > chunk.length :=
          ⟨hnil, hcount, by omega⟩
        rw [if_pos hdiscard]
        have hfin : ¬ (([] : List Str) ≠ [] ∧
            ([] : List Str).length = chunk.length) := by simp
        rw [if_neg hfin]
      · rw [if_neg hcount]
        have hdiscard : ¬ (([] : List Str) ≠ [] ∧
            ([] : List Str).length = chunk.length ∧
            2 * badCount chunk ([] : List Str) > chunk.length) := by simp
        rw [if_neg hdiscard]
        have hfin : ¬ (([] : List Str) ≠ [] ∧
            ([] : List Str).length = chunk.length) := by simp
        rw [if_neg hfin]
  · intro hf
    unfold processChunk
    dsimp only []
    rw [hro]
    dsimp only []
    rw [if_neg (by simp [hst]), hf]
    dsimp only []
    have hdiscard : ¬ (([] : List Str) ≠ [] ∧
        ([] : List Str).length = chunk.length ∧
        2 * badCount chunk ([] : List Str) > chunk.length) := by simp
    rw [if_neg hdiscard]
    have hfin : ¬ (([] : List Str) ≠ [] ∧
        ([] : List Str).length = chunk.length) := by simp
    rw [if_neg hfin]

theorem sepToken_no_match_at {c : Char} {rest : Str} (h : c ≠ '|') :
    sepToken.isPrefixOf (c :: rest) = false := by
  have hbe : (('|' : Char) == c) = false :=
    beq_eq_false_iff_ne.mpr (fun he => h he.symm)
  simp [sepToken, List.isPrefixOf, hbe]

/-- A reply containing no `|` character splits into itself alone. -/
theorem splitSep_plain : ∀ (s : Str), (∀ c ∈ s, c ≠ '|') → splitSep s = [s] := by
  intro s
  induction s with
  | nil =>
    intro _
    rw [splitSep.eq_def]
  | cons c rest ih =>
    intro h
    have hc : c ≠ '|' := h c (List.mem_cons_self c rest)
    have hrest : ∀ x ∈ rest, x ≠ '|' := fun x hx => h x (List.mem_cons_of_mem c hx)
    rw [splitSep.eq_def]
    dsimp only []
    rw [sepToken_no_match_at hc]
    simp only [Bool.false_eq_true, if_false]
    rw [ih hrest]

/-- Witness for C1's theorem: a healthy one-segment chunk is accepted —
the reply splits into exactly one fragment which passes validation. -/
theorem processChunk_http200_witness :
    processChunk netOk exampleGen [helloStr] stEmpty 0 [helloStr] =
      (((sepParts bonjourStr).zip
          ((protectSegs exampleGen stEmpty.fresh [helloStr]).1.map
            (fun q => q.2))).map (fun q => restore_tags q.1 q.2),
        { stEmpty with
          fresh := (protectSegs exampleGen stEmpty.fresh [helloStr]).2,
          clk := (post_with_retry netOk 1 3 stEmpty.clk).t1,
          posts := stEmpty.posts + 1 }) := by
  have hsep : sepParts bonjourStr = [bonjourStr] := by
    unfold sepParts
    rw [splitSep_plain bonjourStr (by decide)]
    decide
  exact ((processChunk_http200 netOk exampleGen [helloStr] stEmpty 0 [helloStr]
      ⟨200, some bonjourStr, []⟩ bonjourStr rfl rfl).1 rfl).1
    ⟨by rw [hsep]; rfl, by rw [hsep]; decide⟩
